import Mathlib

/-!
Shallow embedding of the devpilot collection-and-ingestion pipeline — the
log/diff parsers (`packages/ingestor/src/parsers.ts`), the event store
(`packages/ingestor/src/database.ts`), the ingest entry point
(`packages/ingestor/src/index.ts`) and the polling collector
(`apps/cli/src/commands/collect.ts`) — together with theorems checking the
specification claims about it.

Modeling conventions:
* Text is `List Char`, one `Char` per UTF-16 code unit / byte; the pipeline
  only inspects ASCII metacharacters, so JS string indices, byte offsets and
  char positions coincide on the inputs the collector manipulates.
* External effects are oracles passed as function arguments: `randomUUID` is
  a supply `Nat → Chars` of fresh identifiers, `createHash("sha1")` is an
  abstract `Chars → Chars`, `new Date(..)` parsing is
  `parseIso : Chars → Option Chars`, and the `git` subprocess calls are
  `Option Chars` results (`none` = the call threw).
* Fields of the JS objects that no code path under scrutiny reads (the
  `metadata` bags) are not modeled.
-/

namespace DevPilot

abbrev Chars := List Char

def str (s : String) : Chars := s.data

/-- JS `\s` restricted to the ASCII range (the parsers never meet the
Unicode space characters). -/
def isWS (c : Char) : Bool :=
  c = ' ' || c = '\t' || c = '\n' || c = '\r' || c = '\x0b' || c = '\x0c'

/-- JS `\w` or `-`, the character class `[\w-]` of the `task=` group. -/
def isWordDash (c : Char) : Bool :=
  c.isAlphanum || c = '_' || c = '-'

def splitOnChar (sep : Char) : Chars → List Chars
  | [] => [[]]
  | c :: rest =>
    if c = sep then [] :: splitOnChar sep rest
    else
      match splitOnChar sep rest with
      | [] => [[c]]
      | p :: ps => (c :: p) :: ps

/-- Drop a single trailing carriage return. -/
def stripCR (l : Chars) : Chars :=
  if l.getLast? = some '\r' then l.dropLast else l

def splitLinesAux (p : Chars) : List Chars → List Chars
  | [] => [p]
  | q :: qs => stripCR p :: splitLinesAux q qs

/-- JS `content.split(/\r?\n/)`: split on newlines; a piece that was
terminated by a newline loses one trailing `\r` (consumed by the separator),
the final piece keeps any trailing `\r`. -/
def splitLinesJS (content : Chars) : List Chars :=
  match splitOnChar '\n' content with
  | [] => []
  | p :: ps => splitLinesAux p ps

/-- JS `String.prototype.trim` on the ASCII whitespace set. -/
def trimJS (l : Chars) : Chars :=
  ((l.dropWhile isWS).reverse.dropWhile isWS).reverse

def lowerChars (l : Chars) : Chars := l.map Char.toLower

/-- Case-insensitive literal match at the head of `l`. -/
def ciPrefixOf (kw l : Chars) : Bool :=
  List.isPrefixOf (lowerChars kw) (lowerChars l)

/-- Byte-wise (code-point-wise) lexicographic comparison; this is SQLite's
default TEXT collation (memcmp), which for the UTF-8 the pipeline stores
agrees with code-point order. -/
def charsLe : Chars → Chars → Bool
  | [], _ => true
  | _ :: _, [] => false
  | a :: as, b :: bs => if a < b then true else if b < a then false else charsLe as bs

/-! ## VK log parsing (`parsers.ts`: `VK_LOG_PATTERNS`, `TASK_TOKEN`, `parseVKLog`) -/

structure VKMatch where
  timestamp : Chars
  author : Chars
  severity : Option Chars
  message : Chars
  taskId : Option Chars
deriving DecidableEq

/-- Tail part `(?:\s*\|\s*task=(?<taskId>[\w-]+))?$` of the first pattern:
the optional group matches a suffix `l` exactly when the whole of `l` is
whitespace, a pipe, whitespace, a case-insensitive `task=` and a nonempty
run of `[\w-]` reaching the end of the line (the greedy `[\w-]+` must reach
`$`; shortening it only exposes a character that neither the group nor `$`
can accept). -/
def taskTrailer (l : Chars) : Option Chars :=
  match l.dropWhile isWS with
  | '|' :: r =>
    let r1 := r.dropWhile isWS
    if ciPrefixOf (str "task=") r1 then
      let idPart := r1.drop 5
      if idPart ≠ [] && idPart.all isWordDash then some idPart else none
    else none
  | _ => none

/-- Lazy `(?<message>.+?)` scan: grow the message one character at a time
(at least one), and at each stop first try the optional `task=` trailer,
then end-of-line. `msgScan acc rest` has consumed `acc` (reversed) already. -/
def msgScan : Chars → Chars → Chars × Option Chars
  | acc, [] => (acc.reverse, none)
  | acc, c :: rest =>
    match taskTrailer rest with
    | some tid => ((c :: acc).reverse, some tid)
    | none => msgScan (c :: acc) rest

/-- Shared ending `:\s*(?<message>.+?)(?:\s*\|\s*task=..)?$` of pattern 1:
`r` is the text after the colon. The greedy `\s*` takes the maximal
whitespace run; if that leaves nothing for the mandatory `.+?` the engine
hands one whitespace character back (whitespace matches `.`). -/
def mkP1Match (ts author : Chars) (sev : Option Chars) (r : Chars) : Option VKMatch :=
  let region := r.dropWhile isWS
  if region.isEmpty then
    if r.isEmpty then none
    else some ⟨ts, author, sev, [r.getLastD ' '], none⟩
  else
    let (msg, tid) := msgScan [] region
    some ⟨ts, author, sev, msg, tid⟩

/-- First entry of `VK_LOG_PATTERNS`:
`/^\[(?<timestamp>[^\]]+)\]\s*(?<author>[^:|]+)(?:\|(?<severity>[A-Z]+))?:\s*(?<message>.+?)(?:\s*\|\s*task=(?<taskId>[\w-]+))?$/i`.
Backtracking is resolved deterministically: `[^\]]+` stops at the first `]`;
the greedy `\s*` then `[^:|]+` stop at the first `:` or `|` (when that
leaves the author empty the engine hands back one whitespace character,
whitespace being in `[^:|]`); `[A-Z]+` under `/i` is a maximal ASCII letter
run. -/
def matchVKPattern1 (line : Chars) : Option VKMatch :=
  match line with
  | '[' :: r0 =>
    let ts := r0.takeWhile (· ≠ ']')
    if ts.isEmpty then none
    else
      match r0.drop ts.length with
      | ']' :: r1 =>
        let w := r1.takeWhile isWS
        let afterW := r1.drop w.length
        let a := afterW.takeWhile (fun c => c ≠ ':' && c ≠ '|')
        let author := if a.isEmpty then (if w.isEmpty then [] else [w.getLastD ' ']) else a
        let r2 := afterW.drop a.length
        if author.isEmpty then none
        else
          match r2 with
          | ':' :: r3 => mkP1Match ts author none r3
          | '|' :: r3 =>
            let sev := r3.takeWhile Char.isAlpha
            if sev.isEmpty then none
            else
              match r3.drop sev.length with
              | ':' :: r4 => mkP1Match ts author (some sev) r4
              | _ => none
          | _ => none
      | _ => none
  | _ => none

/-- Second entry of `VK_LOG_PATTERNS`:
`/^(?<timestamp>\d{4}-\d{2}-\d{2}[^ ]*)\s+(?<severity>[A-Z]+)\s+(?<author>[^:]+):\s*(?<message>.+)$/`
(no `/i`: the severity really is uppercase-only). All runs are maximal;
the exotic backtracking where `[^ ]*` would hand back embedded tab
characters is not modeled (no claim and no chosen input exercises it). -/
def matchVKPattern2 (line : Chars) : Option VKMatch :=
  match line with
  | a :: b :: c :: d :: '-' :: e :: f :: '-' :: g :: h :: rest =>
    if [a, b, c, d, e, f, g, h].all Char.isDigit then
      let extra := rest.takeWhile (· ≠ ' ')
      let r1 := rest.drop extra.length
      let ws1 := r1.takeWhile isWS
      if ws1.isEmpty then none
      else
        let r2 := r1.drop ws1.length
        let sev := r2.takeWhile (fun ch => 'A' ≤ ch && ch ≤ 'Z')
        if sev.isEmpty then none
        else
          let r3 := r2.drop sev.length
          let ws2 := r3.takeWhile isWS
          if ws2.isEmpty then none
          else
            let r4 := r3.drop ws2.length
            let au := r4.takeWhile (· ≠ ':')
            if au.isEmpty then none
            else
              match r4.drop au.length with
              | ':' :: r5 =>
                let region := r5.dropWhile isWS
                let tstamp := [a, b, c, d, '-', e, f, '-', g, h] ++ extra
                if region.isEmpty then
                  if r5.isEmpty then none
                  else some ⟨tstamp, au, some sev, [r5.getLastD ' '], none⟩
                else some ⟨tstamp, au, some sev, region, none⟩
              | _ => none
    else none
  | _ => none

/-- Ordered pattern list, first match wins (`parseVKLog` loop). -/
def matchVKPatterns (line : Chars) : Option VKMatch :=
  match matchVKPattern1 line with
  | some m => some m
  | none => matchVKPattern2 line

/-- One attempt of `TASK_TOKEN = /(TASK|ISSUE|BUG)[-#]?(?<id>\d{2,6})/i` at
the head of `l`: the keyword alternatives start with distinct letters so at
most one applies; `[-#]?` prefers to consume a separator; `\d{2,6}` is a
maximal digit run capped at six, needing at least two. When the separator
was consumed but too few digits follow, dropping the separator cannot help
(the separator itself is not a digit), faithfully yielding no match. -/
def tryTaskAt (l : Chars) : Option Chars :=
  match [str "task", str "issue", str "bug"].find? (fun kw => ciPrefixOf kw l) with
  | none => none
  | some kw =>
    match l.drop kw.length with
    | [] => none
    | c :: r2 =>
      if c = '-' || c = '#' then
        let ds := r2.takeWhile Char.isDigit
        if 2 ≤ ds.length then some (ds.take 6) else none
      else
        let ds := (c :: r2).takeWhile Char.isDigit
        if 2 ≤ ds.length then some (ds.take 6) else none

/-- `line.match(TASK_TOKEN)?.groups?.id`: leftmost match of the token scan. -/
def findTaskToken : Chars → Option Chars
  | [] => none
  | c :: rest =>
    match tryTaskAt (c :: rest) with
    | some ds => some ds
    | none => findTaskToken rest

structure ParsedVKEvent where
  message : Chars
  createdAt : Chars
  author : Option Chars
  severity : Option Chars
  taskId : Option Chars
deriving DecidableEq

/-- `normalizeTimestamp(timestamp, fallback)` from `parsers.ts`, with
`new Date(..)` parsing supplied as the oracle `parseIso` (`some` = a valid
date, returning its ISO form) and `new Date().toISOString()` as `now`.
An empty captured timestamp is JS-falsy, hence the emptiness test. -/
def normalizeTimestamp (parseIso : Chars → Option Chars) (now : Chars)
    (ts : Option Chars) (fallback : Option Chars) : Chars :=
  match ts with
  | none => fallback.getD now
  | some t =>
    if t.isEmpty then fallback.getD now
    else
      match parseIso t with
      | some iso => iso
      | none => fallback.getD now

structure VKLogIngest where
  /-- Attached by the collector (`collect.ts` pushes
  `id: createDeterministicLogId(line)`); the declared `VKLogIngest`
  interface in `types.ts` has no such field and the ingestor never reads
  it — central to claim C1. -/
  id : Option Chars
  content : Chars
  source : Option Chars
  receivedAt : Option Chars
deriving DecidableEq

/-- Per-line body of the `parseVKLog` loop. -/
def parseVKLine (parseIso : Chars → Option Chars) (now : Chars)
    (receivedAt : Option Chars) (line : Chars) : ParsedVKEvent :=
  match matchVKPatterns line with
  | none =>
    { message := line
      createdAt := receivedAt.getD now
      author := none
      severity := none
      taskId := (findTaskToken line).map (fun ds => str "TASK-" ++ ds) }
  | some m =>
    let discovered :=
      match m.taskId with
      | some t => some t
      | none => findTaskToken line
    { message := trimJS m.message
      createdAt := normalizeTimestamp parseIso now (some m.timestamp) receivedAt
      author := some m.author
      severity := m.severity
      taskId := discovered.map (fun ds => str "TASK-" ++ ds) }

/-- `parseVKLog` from `parsers.ts`: split on line endings, trim, drop blank
lines, parse each survivor. -/
def parseVKLog (parseIso : Chars → Option Chars) (now : Chars)
    (log : VKLogIngest) : List ParsedVKEvent :=
  ((splitLinesJS log.content).map trimJS).filter (fun l => !l.isEmpty)
    |>.map (parseVKLine parseIso now log.receivedAt)

structure DigestEvent where
  id : Chars
  type : Chars
  source : Chars
  message : Chars
  createdAt : Chars
  taskId : Option Chars
deriving DecidableEq

def mapIdxFrom (f : Nat → α → β) : Nat → List α → List β
  | _, [] => []
  | k, a :: as => f k a :: mapIdxFrom f (k + 1) as

/-- `toDigestEventsFromVK` from `parsers.ts`; `uuid i` models the i-th
`randomUUID()` call of this invocation. -/
def toDigestEventsFromVK (uuid : Nat → Chars) (parsed : List ParsedVKEvent)
    (source : Chars) : List DigestEvent :=
  mapIdxFrom
    (fun i entry =>
      { id := uuid i
        type :=
          if entry.severity.map lowerChars = some (str "error") then str "incident"
          else str "vk_log"
        source := source
        message := entry.message
        createdAt := entry.createdAt
        taskId := entry.taskId })
    0 parsed

/-! ## Git diff parsing (`parsers.ts`: `DIFF_SPLIT_REGEX`, `parseGitDiff`,
`toDigestEventsFromDiff`)

`parseGitDiff` runs `DIFF_SPLIT_REGEX = /^diff --git\s+a\/(.+)\s+b\/(.+)$/gm`
with `matchAll` and slices the raw text at the match indices. Because the
`^`/`$` anchors pin every match to a whole line, those indices are line
starts; the model therefore works on the line list (`splitLinesJS` of the
raw text) and slices it at the header lines. Re-splitting a character-level
chunk would only add a final empty string (the newline preceding the next
header belongs to the chunk), which no prefix count ever matches — noted
where it matters. Multiline `^` also matching after a lone `\r` (a JS
quirk) is not modeled; no input here contains a bare carriage return. -/

/-- Decide whether `mid` splits as `(.+)\s+b\/(.+)` reaching the end: find
the largest `i` (the first `.+` is greedy) such that after the `i`-char
first capture comes a nonempty whitespace run, the literal `b/`, and a
nonempty second capture. For a fixed split the whitespace run is forced to
be maximal since `b` is not whitespace. -/
def diffSplitAt (mid : Chars) (i : Nat) : Option (Chars × Chars) :=
  let t := mid.drop i
  let w := t.takeWhile isWS
  if w.isEmpty then none
  else
    match t.drop w.length with
    | 'b' :: '/' :: g2 => if g2.isEmpty then none else some (mid.take i, g2)
    | _ => none

def diffSplitSearch (mid : Chars) : Nat → Option (Chars × Chars)
  | 0 => none
  | i + 1 =>
    match diffSplitAt mid (i + 1) with
    | some r => some r
    | none => diffSplitSearch mid i

/-- Match one line against `^diff --git\s+a\/(.+)\s+b\/(.+)$`, returning the
two path captures. The leading `\s+` is forced maximal (`a` is not
whitespace). -/
def matchDiffHeader (line : Chars) : Option (Chars × Chars) :=
  if List.isPrefixOf (str "diff --git") line then
    let rest := line.drop 10
    let w := rest.takeWhile isWS
    if w.isEmpty then none
    else
      match rest.drop w.length with
      | 'a' :: '/' :: mid => diffSplitSearch mid (mid.length - 1)
      | _ => none
  else none

def diffChunksAux (fp : Chars) (cur : List Chars) :
    List Chars → List (Chars × List Chars)
  | [] => [(fp, (cur.reverse))]
  | line :: rest =>
    match matchDiffHeader line with
    | some (_, g2) => (fp, cur.reverse) :: diffChunksAux g2 [line] rest
    | none => diffChunksAux fp (line :: cur) rest

/-- Slice the line list at the `diff --git` header lines: each chunk starts
with its header and runs up to the next header (text before the first
header is discarded — `content.slice` starts at the first match index).
Each chunk is paired with the second (`b/`, new-file side) path capture of
its header, which is what `match[2] ?? match[1]` selects. -/
def diffChunks : List Chars → List (Chars × List Chars)
  | [] => []
  | line :: rest =>
    match matchDiffHeader line with
    | some (_, g2) => diffChunksAux g2 [line] rest
    | none => diffChunks rest

/-- `countPrefix(chunk, prefix)`: lines starting with the prefix but not
with the prefix repeated three times. -/
def countPrefixJS (pre : Chars) (lines : List Chars) : Nat :=
  (lines.filter
    (fun l => List.isPrefixOf pre l && !List.isPrefixOf (pre ++ pre ++ pre) l)).length

/-- `deriveFallbackFile`: first `+++`/`---` line, with
`.replace(/^\+\+\+\s+/, "").replace(/^---\s+/, "")` applied — each replace
removes the marker only when whitespace follows it. -/
def stripMarker (marker : Chars) (l : Chars) : Chars :=
  if List.isPrefixOf marker l then
    let after := l.drop marker.length
    let w := after.takeWhile isWS
    if w.isEmpty then l else after.drop w.length
  else l

def deriveFallbackFile (lines : List Chars) : Chars :=
  match lines.find? (fun l =>
      List.isPrefixOf (str "+++") l || List.isPrefixOf (str "---") l) with
  | none => str "untracked"
  | some l => stripMarker (str "---") (stripMarker (str "+++") l)

structure GitDiffIngest where
  content : Chars
  repository : Option Chars
  branch : Option Chars
  commit : Option Chars
  capturedAt : Option Chars
deriving DecidableEq

structure ParsedGitDiff where
  filePath : Chars
  additions : Nat
  deletions : Nat
  createdAt : Chars
deriving DecidableEq

/-- `parseGitDiff` from `parsers.ts`; `now` stands in for
`new Date().toISOString()` in the `capturedAt ?? ...` default. -/
def parseGitDiff (now : Chars) (diff : GitDiffIngest) : List ParsedGitDiff :=
  let lines := splitLinesJS diff.content
  let createdAt := diff.capturedAt.getD now
  let results :=
    (diffChunks lines).map (fun pc =>
      { filePath := pc.1
        additions := countPrefixJS (str "+") pc.2
        deletions := countPrefixJS (str "-") pc.2
        createdAt := createdAt })
  if results.isEmpty && !(trimJS diff.content).isEmpty then
    [{ filePath := deriveFallbackFile lines
       additions := countPrefixJS (str "+") lines
       deletions := countPrefixJS (str "-") lines
       createdAt := createdAt }]
  else results

def natChars (n : Nat) : Chars := str (toString n)

/-- `formatDiffMessage` from `parsers.ts`. -/
def formatDiffMessage (d : ParsedGitDiff) : Chars :=
  let direction := if d.deletions ≤ d.additions then str "expansion" else str "shrink"
  d.filePath ++ str " " ++ direction ++ str " (+" ++ natChars d.additions
    ++ str "/-" ++ natChars d.deletions ++ str ")"

structure DiffContext where
  repository : Option Chars
  branch : Option Chars
  commit : Option Chars
deriving DecidableEq

/-- `toDigestEventsFromDiff` from `parsers.ts`. -/
def toDigestEventsFromDiff (uuid : Nat → Chars) (parsed : List ParsedGitDiff)
    (context : DiffContext) : List DigestEvent :=
  mapIdxFrom
    (fun i entry =>
      { id := uuid i
        type := str "git_diff"
        source := context.repository.getD (str "unknown")
        message := formatDiffMessage entry
        createdAt := entry.createdAt
        taskId := none })
    0 parsed

/-! ## Event store (`database.ts`)

Each SQLite table is a list of rows in rowid order: an `INSERT .. ON
CONFLICT(id) DO UPDATE` either rewrites the conflicting row in place or
appends a fresh row, and `DELETE` filters. `ORDER BY datetime(created_at)
DESC` is modeled as a byte-wise descending sort on the stored text —
`datetime` is monotone on the ISO-8601 UTC strings the pipeline writes. -/

abbrev EventTable := List DigestEvent

/-- `insertEvent`: upsert keyed on `id` (the builders always set an id, so
the `event.id ?? randomUUID()` default never fires for pipeline events). -/
def upsertEvent (table : EventTable) (e : DigestEvent) : EventTable :=
  if table.any (fun row => row.id = e.id) then
    table.map (fun row => if row.id = e.id then e else row)
  else table ++ [e]

/-- WHERE clause of `listEvents`: `created_at >= @since`, plus `type IN`
and `task_id IN` clauses that are added only when the corresponding filter
list is present and nonempty (`options.filters?.types?.length` — an empty
array is falsy). A row with NULL `task_id` never satisfies `task_id IN`. -/
def eventPasses (since : Chars) (types taskIds : Option (List Chars))
    (e : DigestEvent) : Bool :=
  charsLe since e.createdAt
    && (match types with
        | some (t :: ts) => (t :: ts).contains e.type
        | _ => true)
    && (match taskIds with
        | some (t :: ts) =>
          match e.taskId with
          | some tid => (t :: ts).contains tid
          | none => false
        | _ => true)

/-- `listEvents`: filter, order newest-first, and apply `LIMIT` only when a
limit is present and nonzero (`options.limit ? "LIMIT @limit" : ""` — the
number 0 is falsy). -/
def listEvents (table : EventTable) (since : Chars) (limit : Option Nat)
    (types taskIds : Option (List Chars)) : List DigestEvent :=
  let sorted :=
    (table.filter (eventPasses since types taskIds)).mergeSort
      (fun a b => charsLe b.createdAt a.createdAt)
  match limit with
  | some (n + 1) => sorted.take (n + 1)
  | _ => sorted

/-! ### Tasks (`upsertTask`) — only the shape matters to the claims. -/

structure TaskSeed where
  id : Option Chars
  title : Chars
  status : Option Chars
  priority : Option Nat
  assignee : Option Chars
  createdAt : Option Chars
deriving DecidableEq

structure StoredTask where
  id : Chars
  title : Chars
  status : Chars
  priority : Nat
  assignee : Option Chars
  createdAt : Chars
deriving DecidableEq

abbrev TaskTable := List StoredTask

/-- `upsertTask`: resolve the defaults, then upsert keyed on `id`. `uuid`
models the `randomUUID()` fallback and `now` the `new Date().toISOString()`
default. -/
def upsertTask (uuid : Chars) (now : Chars) (table : TaskTable)
    (task : TaskSeed) : TaskTable × StoredTask :=
  let row : StoredTask :=
    { id := task.id.getD uuid
      title := task.title
      status := task.status.getD (str "open")
      priority := task.priority.getD 3
      assignee := task.assignee
      createdAt := task.createdAt.getD now }
  if table.any (fun r => r.id = row.id) then
    (table.map (fun r => if r.id = row.id then row else r), row)
  else (table ++ [row], row)

def upsertTasks (uuid : Nat → Chars) (now : Chars) :
    TaskTable → Nat → List TaskSeed → TaskTable × List StoredTask
  | table, _, [] => (table, [])
  | table, k, t :: ts =>
    let (table1, row) := upsertTask (uuid k) now table t
    let (table2, rows) := upsertTasks uuid now table1 (k + 1) ts
    (table2, row :: rows)

/-! ### Summaries (`recordSummaries`) -/

structure SummaryRecord where
  id : Option Chars
  taskId : Chars
  status : Chars
  summaryText : Chars
  risk : Chars
  nextSteps : List Chars
  diffSummary : Chars
  createdAt : Option Chars
deriving DecidableEq

structure SummaryRow where
  id : Chars
  taskId : Chars
  status : Chars
  summaryText : Chars
  risk : Chars
  nextSteps : List Chars
  diffSummary : Chars
  createdAt : Chars
deriving DecidableEq

abbrev SummaryTable := List SummaryRow

/-- The row the `insert.run(payload)` statement writes for one record;
`uuid` models this record's `randomUUID()` fallback and `now` the
`createdAt ?? new Date().toISOString()` default. -/
def resolveSummary (uuid : Chars) (now : Chars) (item : SummaryRecord) : SummaryRow :=
  { id := item.id.getD uuid
    taskId := item.taskId
    status := item.status
    summaryText := item.summaryText
    risk := item.risk
    nextSteps := item.nextSteps
    diffSummary := item.diffSummary
    createdAt := item.createdAt.getD now }

def upsertSummary (table : SummaryTable) (row : SummaryRow) : SummaryTable :=
  if table.any (fun r => r.id = row.id) then
    table.map (fun r => if r.id = row.id then row else r)
  else table ++ [row]

/-- Loop body of `recordSummaries`: when replacement is on and the record
carries a (JS-truthy, i.e. nonempty) task id, `DELETE FROM summaries WHERE
task_id = ?` runs before the insert. -/
def summaryStep (replaceExisting : Bool) (table : SummaryTable)
    (row : SummaryRow) : SummaryTable :=
  let table1 :=
    if replaceExisting && !row.taskId.isEmpty then
      table.filter (fun r => r.taskId ≠ row.taskId)
    else table
  upsertSummary table1 row

def summaryLoop (replaceExisting : Bool) (uuid : Nat → Chars) (now : Chars) :
    SummaryTable → Nat → List SummaryRecord → SummaryTable
  | table, _, [] => table
  | table, k, item :: rest =>
    summaryLoop replaceExisting uuid now
      (summaryStep replaceExisting table (resolveSummary (uuid k) now item))
      (k + 1) rest

/-- `recordSummaries(summary, options)`: `options` itself and its
`replaceExisting` field are both optional, and the default is
`options?.replaceExisting ?? true`. -/
def recordSummaries (uuid : Nat → Chars) (now : Chars) (table : SummaryTable)
    (batch : List SummaryRecord) (options : Option (Option Bool)) : SummaryTable :=
  summaryLoop ((options.bind id).getD true) uuid now table 0 batch

/-! ## Ingest entry point (`index.ts`: `Ingestor.ingest`,
`IngestorDatabase.ingest`)

The `randomUUID()` calls made while building events are modeled as one
global supply `uuid : Nat → Chars` indexed by call position within the
ingest invocation; the metadata enrichment (`sourceType`, `ingestedAt`,
`since`, ...) only touches the unmodeled metadata bags and is omitted. -/

structure IngestOptions where
  since : Chars
  limit : Option Nat
  filters : Option (List Chars)
  vkLogs : List VKLogIngest
  gitDiffs : List GitDiffIngest
  tasks : List TaskSeed

def buildVKEvents (uuid : Nat → Chars) (parseIso : Chars → Option Chars)
    (now defaultSource : Chars) : Nat → List VKLogIngest → List DigestEvent × Nat
  | k, [] => ([], k)
  | k, log :: rest =>
    let evs :=
      toDigestEventsFromVK (fun i => uuid (k + i)) (parseVKLog parseIso now log)
        (log.source.getD defaultSource)
    let (more, k2) := buildVKEvents uuid parseIso now defaultSource (k + evs.length) rest
    (evs ++ more, k2)

def buildDiffEvents (uuid : Nat → Chars) (now defaultSource : Chars) :
    Nat → List GitDiffIngest → List DigestEvent × Nat
  | k, [] => ([], k)
  | k, diff :: rest =>
    let evs :=
      toDigestEventsFromDiff (fun i => uuid (k + i)) (parseGitDiff now diff)
        ⟨some (diff.repository.getD defaultSource), diff.branch, diff.commit⟩
    let (more, k2) := buildDiffEvents uuid now defaultSource (k + evs.length) rest
    (evs ++ more, k2)

/-- The event list `Ingestor.ingest` hands to `database.ingest`: all VK log
events, then all diff events. -/
def buildIngestEvents (uuid : Nat → Chars) (parseIso : Chars → Option Chars)
    (now defaultSource : Chars) (opts : IngestOptions) : List DigestEvent :=
  let (vk, k) := buildVKEvents uuid parseIso now defaultSource 0 opts.vkLogs
  let (df, _) := buildDiffEvents uuid now defaultSource k opts.gitDiffs
  vk ++ df

structure IngestResult where
  events : List DigestEvent
  tasks : List StoredTask
deriving DecidableEq

/-- `IngestorDatabase.ingest`: upsert the tasks, insert every event, then
answer the result by re-querying the store with the call's since watermark,
limit and type filters (`filters: options.filters ? { types: options.filters }
: undefined`; an empty array is truthy in JS but an empty `types` adds no
clause either way, so passing the option through is equivalent). -/
def dbIngest (taskUuid : Nat → Chars) (now : Chars) (eventTable : EventTable)
    (taskTable : TaskTable) (opts : IngestOptions) (events : List DigestEvent)
    (tasks : List TaskSeed) : EventTable × TaskTable × IngestResult :=
  let tr := upsertTasks taskUuid now taskTable 0 tasks
  let eventTable2 := events.foldl upsertEvent eventTable
  (eventTable2, tr.1,
    { events := listEvents eventTable2 opts.since opts.limit opts.filters none
      tasks := tr.2 })

/-- `Ingestor.ingest`: build events from the raw logs and diffs, then defer
to the database. -/
def ingestorIngest (uuid taskUuid : Nat → Chars) (parseIso : Chars → Option Chars)
    (now defaultSource : Chars) (eventTable : EventTable) (taskTable : TaskTable)
    (opts : IngestOptions) : EventTable × TaskTable × IngestResult :=
  dbIngest taskUuid now eventTable taskTable opts
    (buildIngestEvents uuid parseIso now defaultSource opts) opts.tasks

/-! ## Polling collector (`apps/cli/src/commands/collect.ts`) -/

/-- Leftmost match of `/\[(?<timestamp>[^\]]+)\]/`: the first `[` followed
by a nonempty run of non-`]` characters and a closing `]`. On failure the
scan resumes one character further right. -/
def bracketCapture : Chars → Option Chars
  | [] => none
  | '[' :: rest =>
    let ts := rest.takeWhile (· ≠ ']')
    if ts.isEmpty then bracketCapture rest
    else
      match rest.drop ts.length with
      | ']' :: _ => some ts
      | _ => bracketCapture rest
  | _ :: rest => bracketCapture rest

/-- `createDeterministicLogId(line)`: sha1 (the oracle `sha1hex`) of
`` `${timestamp}|${messagePart}` `` where `timestamp` is the first
bracketed run (else the empty string) and `messagePart` is the trimmed text
after the first `:` (`line.split(":").slice(1).join(":")` restores any
later colons), or the whole trimmed line when no colon occurs. -/
def createDeterministicLogId (sha1hex : Chars → Chars) (line : Chars) : Chars :=
  let tstamp := (bracketCapture line).getD []
  let messagePart :=
    if line.contains ':' then trimJS ((line.dropWhile (· ≠ ':')).drop 1)
    else trimJS line
  sha1hex (tstamp ++ ['|'] ++ messagePart)

structure DirEntry where
  name : Chars
  isFile : Bool
  content : Chars
deriving DecidableEq

def alookup : List (Chars × Nat) → Chars → Option Nat
  | [], _ => none
  | (k, v) :: rest, key => if k = key then some v else alookup rest key

/-- JS object property write: overwrite in place or append. -/
def aset : List (Chars × Nat) → Chars → Nat → List (Chars × Nat)
  | [], key, v => [(key, v)]
  | (k, w) :: rest, key, v =>
    if k = key then (key, v) :: rest else (k, w) :: aset rest key v

/-- `path.relative(workingDirectory, path.join(vkDirectory, name))` for the
layout `handleCollect` sets up (`vkDirectory = workingDirectory/.vk`). -/
def vkRelPath (name : Chars) : Chars := str ".vk/" ++ name

/-- Per-directory-entry body of the `collectVKLogs` loop: skip non-files and
files without the `.log` extension; restart from offset 0 when the file
shrank below the recorded offset; emit nothing (but record the new length)
when nothing lies beyond the start offset; otherwise decode the appended
range, split/trim/drop-blank into lines, and emit one `VKLogIngest` per
line stamped with the poll's capture time. -/
def tailStep (sha1hex : Chars → Chars) (now : Chars)
    (st : List VKLogIngest × List (Chars × Nat)) (entry : DirEntry) :
    List VKLogIngest × List (Chars × Nat) :=
  if !(entry.isFile && List.isSuffixOf (str ".log") entry.name) then st
  else
    let rel := vkRelPath entry.name
    let prev := (alookup st.2 rel).getD 0
    let start := if entry.content.length < prev then 0 else prev
    if entry.content.length ≤ start then (st.1, aset st.2 rel entry.content.length)
    else
      let chunk := entry.content.drop start
      let lines := ((splitLinesJS chunk).map trimJS).filter (fun l => !l.isEmpty)
      (st.1 ++ lines.map (fun line =>
          { id := some (createDeterministicLogId sha1hex line)
            content := line
            source := some entry.name
            receivedAt := some now }),
        aset st.2 rel entry.content.length)

/-- `collectVKLogs`: `dir = none` models `readdir` throwing ENOENT (no log
directory — zero logs, offsets returned as copied). -/
def collectVKLogs (sha1hex : Chars → Chars) (now : Chars)
    (offsets0 : List (Chars × Nat)) (dir : Option (List DirEntry)) :
    List VKLogIngest × List (Chars × Nat) :=
  match dir with
  | none => ([], offsets0)
  | some entries => entries.foldl (tailStep sha1hex now) ([], offsets0)

/-- `new Set(list)` then `Array.from`: first occurrences in order. -/
def addUnique (l : List Chars) (x : Chars) : List Chars :=
  if l.contains x then l else l ++ [x]

def dedupFirst (l : List Chars) : List Chars := l.foldl addUnique []

/-- Commit loop of `collectGitDiffs`: skip commits already processed; fetch
the patch (`fetch sha = none` models `git show` throwing — warn and skip);
on success append the diff and remember the commit. -/
def processCommits (fetch : Chars → Option Chars) (repo branch : Option Chars)
    (capturedAt : Chars) :
    List Chars → List Chars → List GitDiffIngest → List Chars × List GitDiffIngest
  | [], processed, diffs => (processed, diffs)
  | sha :: rest, processed, diffs =>
    if processed.contains sha then
      processCommits fetch repo branch capturedAt rest processed diffs
    else
      match fetch sha with
      | some content =>
        processCommits fetch repo branch capturedAt rest (processed ++ [sha])
          (diffs ++ [⟨content, repo, branch, some sha, some capturedAt⟩])
      | none => processCommits fetch repo branch capturedAt rest processed diffs

/-- `processedCommits.splice(0, length - 200)`: keep the most recent 200. -/
def trimProcessed (l : List Chars) : List Chars :=
  if 200 < l.length then l.drop (l.length - 200) else l

/-- `collectGitDiffs`: `gitLog = none` models the `git log` subprocess
throwing (not a repository, ...) — warn and return no diffs and the
processed set as materialized from the `Set`. The truncation to 200 runs
only on the path that actually walked a commit list. -/
def collectGitDiffs (gitLog : Option Chars) (fetch : Chars → Option Chars)
    (repo branch : Option Chars) (capturedAt : Chars)
    (processedCommits : List Chars) : List GitDiffIngest × List Chars :=
  let processed0 := dedupFirst processedCommits
  match gitLog with
  | none => ([], processed0)
  | some out =>
    let stdout := trimJS out
    if stdout.isEmpty then ([], processed0)
    else
      let commits :=
        (((splitLinesJS stdout).map trimJS).filter (fun l => !l.isEmpty)).reverse
      let (processed, diffs) :=
        processCommits fetch repo branch capturedAt commits processed0 []
      (diffs, trimProcessed processed)

/-! ## Shared lemmas -/

theorem mem_addUnique {l : List Chars} {x y : Chars} :
    x ∈ addUnique l y ↔ x ∈ l ∨ x = y := by
  unfold addUnique
  split
  · next h =>
    simp only [List.contains, List.elem_eq_mem, decide_eq_true_eq] at h
    constructor
    · exact Or.inl
    · rintro (hx | rfl)
      · exact hx
      · exact h
  · simp [List.mem_append]

theorem mem_foldl_addUnique :
    ∀ (l : List Chars) (acc : List Chars) (x : Chars),
      x ∈ l.foldl addUnique acc ↔ x ∈ acc ∨ x ∈ l := by
  intro l
  induction l with
  | nil => simp
  | cons y ys ih =>
    intro acc x
    simp only [List.foldl_cons, ih, mem_addUnique, List.mem_cons]
    tauto

theorem mem_dedupFirst {l : List Chars} {x : Chars} :
    x ∈ dedupFirst l ↔ x ∈ l := by
  unfold dedupFirst
  simp [mem_foldl_addUnique]

theorem length_addUnique_le (l : List Chars) (y : Chars) :
    (addUnique l y).length ≤ l.length + 1 := by
  unfold addUnique
  split
  · omega
  · simp

theorem length_foldl_addUnique_le :
    ∀ (l : List Chars) (acc : List Chars),
      (l.foldl addUnique acc).length ≤ acc.length + l.length := by
  intro l
  induction l with
  | nil => simp
  | cons y ys ih =>
    intro acc
    calc (List.foldl addUnique (addUnique acc y) ys).length
        ≤ (addUnique acc y).length + ys.length := ih _
      _ ≤ acc.length + 1 + ys.length := by
          have := length_addUnique_le acc y
          omega
      _ = acc.length + (y :: ys).length := by simp; omega

theorem length_dedupFirst_le (l : List Chars) : (dedupFirst l).length ≤ l.length := by
  have := length_foldl_addUnique_le l []
  simpa [dedupFirst] using this

theorem processCommits_mono (fetch : Chars → Option Chars) (repo branch : Option Chars)
    (cap : Chars) :
    ∀ (commits processed : List Chars) (diffs : List GitDiffIngest) (x : Chars),
      x ∈ processed → x ∈ (processCommits fetch repo branch cap commits processed diffs).1 := by
  intro commits
  induction commits with
  | nil => intro processed diffs x hx; simpa [processCommits] using hx
  | cons sha rest ih =>
    intro processed diffs x hx
    simp only [processCommits]
    split
    · exact ih _ _ x hx
    · split
      · exact ih _ _ x (by simp [hx])
      · exact ih _ _ x hx

theorem processCommits_new (fetch : Chars → Option Chars) (repo branch : Option Chars)
    (cap : Chars) :
    ∀ (commits processed : List Chars) (diffs : List GitDiffIngest) (x : Chars),
      x ∈ (processCommits fetch repo branch cap commits processed diffs).1 →
        x ∈ processed ∨ (fetch x).isSome := by
  intro commits
  induction commits with
  | nil => intro processed diffs x hx; simpa [processCommits] using Or.inl hx
  | cons sha rest ih =>
    intro processed diffs x hx
    simp only [processCommits] at hx
    revert hx
    split
    · exact ih _ _ x
    · split
      · next content hf =>
        intro hx
        rcases ih _ _ x hx with hmem | hok
        · rcases List.mem_append.mp hmem with h | h
          · exact Or.inl h
          · simp only [List.mem_singleton] at h
            subst h
            exact Or.inr (by simp [hf])
        · exact Or.inr hok
      · exact ih _ _ x

theorem processCommits_diffs (fetch : Chars → Option Chars) (repo branch : Option Chars)
    (cap : Chars) :
    ∀ (commits processed : List Chars) (diffs : List GitDiffIngest) (d : GitDiffIngest),
      d ∈ (processCommits fetch repo branch cap commits processed diffs).2 →
        d ∈ diffs ∨ ∃ c, d.commit = some c ∧ c ∉ processed ∧ (fetch c).isSome := by
  intro commits
  induction commits with
  | nil => intro processed diffs d hd; simpa [processCommits] using Or.inl hd
  | cons sha rest ih =>
    intro processed diffs d hd
    simp only [processCommits] at hd
    revert hd
    split
    · exact ih _ _ d
    · next hcontains =>
      split
      · next content hf =>
        intro hd
        rcases ih _ _ d hd with hmem | ⟨c, hc, hcp, hok⟩
        · rcases List.mem_append.mp hmem with h | h
          · exact Or.inl h
          · simp only [List.mem_singleton] at h
            subst h
            refine Or.inr ⟨sha, rfl, ?_, by simp [hf]⟩
            simpa [List.contains, List.elem_eq_mem] using hcontains
        · refine Or.inr ⟨c, hc, fun hmem => hcp (by simp [hmem]), hok⟩
      · exact ih _ _ d

theorem processCommits_append (fetch : Chars → Option Chars) (repo branch : Option Chars)
    (cap : Chars) :
    ∀ (commits processed : List Chars) (diffs : List GitDiffIngest),
      ∃ l, (processCommits fetch repo branch cap commits processed diffs).1
            = processed ++ l ∧ ∀ c ∈ l, (fetch c).isSome := by
  intro commits
  induction commits with
  | nil => intro processed diffs; exact ⟨[], by simp [processCommits]⟩
  | cons sha rest ih =>
    intro processed diffs
    simp only [processCommits]
    split
    · exact ih _ _
    · split
      · next content hf =>
        obtain ⟨l, hl, hok⟩ := ih (processed ++ [sha]) _
        refine ⟨sha :: l, by simpa using hl, ?_⟩
        intro c hc
        rcases List.mem_cons.mp hc with rfl | hc
        · simp [hf]
        · exact hok c hc
      · exact ih _ _

theorem trimProcessed_suffix (l : List Chars) : trimProcessed l <:+ l := by
  unfold trimProcessed
  split
  · exact List.drop_suffix _ _
  · exact List.suffix_refl _

theorem trimProcessed_length_le (l : List Chars) : (trimProcessed l).length ≤ 200 := by
  unfold trimProcessed
  split
  · next h => simp; omega
  · next h => omega

/-! ## Claims -/

/-- The C1 failing input: the raw log line of the repository's own
end-to-end test, tailed by the collector (which attaches
`createDeterministicLogId` over an arbitrary sha1 oracle). -/
def c1Line : Chars := str "[2024-06-20T12:00:00Z] bot|INFO: processed task #42"

def c1ParseIso : Chars → Option Chars := fun _ => some (str "2024-06-20T12:00:00.000Z")

def c1Logs : List VKLogIngest :=
  (collectVKLogs (fun _ => str "deadbeef") (str "2024-06-20T12:01:00.000Z") []
    (some [⟨str "agent.log", true, c1Line⟩])).1

def c1Opts : IngestOptions :=
  { since := str "1970-01-01T00:00:00.000Z", limit := none, filters := none
    vkLogs := c1Logs, gitDiffs := [], tasks := [] }

/-- Event table after ingesting the line once (`randomUUID()` returning
`u1`) and then a second time in a later poll cycle (`randomUUID()`
returning `u2`). -/
def c1StoreTwice : EventTable :=
  (ingestorIngest (fun _ => str "u2") (fun _ => str "t2") c1ParseIso (str "NOW")
    (str "workspace")
    ((ingestorIngest (fun _ => str "u1") (fun _ => str "t1") c1ParseIso (str "NOW")
        (str "workspace") [] [] c1Opts).1)
    [] c1Opts).1

/-- C1: the claim says re-ingesting the same raw log line (same timestamp
and message) yields exactly one stored event because the stored id is a
deterministic function of the line. Evaluating the code at the failing
input refutes this: ingesting `[2024-06-20T12:00:00Z] bot|INFO: processed
task #42` in two poll cycles leaves TWO rows with that message in the event
store — `toDigestEventsFromVK` ids every event with a fresh `randomUUID()`
and the deterministic id is dropped at the `VKLogIngest` boundary. -/
theorem C1_reingestion_duplicates :
    (c1StoreTwice.filter (fun e => e.message == str "processed task #42")).length = 2 := by
  decide

set_option maxRecDepth 8000 in
/-- C2 counterexample: the claim says the returned processed set never
exceeds 200 entries, for every call. A call whose `git log` succeeds but
lists no commits (equally: fails) returns the input set untruncated — with
201 distinct input identifiers the returned set has 201 entries. -/
theorem C2_processed_cap_counterexample :
    200 < ((collectGitDiffs (some []) (fun _ => none) none none (str "CAP")
      ((List.range 201).map natChars)).2).length := by
  decide

/-- C2 (amended): no commit identifier already present in the input
processed set ever has its diff re-emitted; every identifier in the
returned set is either from the input or was successfully fetched; the
returned set is a suffix of "deduplicated input ++ newly fetched
identifiers" (append, evict from the front); and whenever the input set has
at most 200 entries the returned set has at most 200 entries (truncation to
the most recent 200 runs on the path that walked a commit list; the
early-return paths hand the input set back unchanged). -/
theorem C2_commit_dedup_amended (gitLog : Option Chars) (fetch : Chars → Option Chars)
    (repo branch : Option Chars) (cap : Chars) (input : List Chars) :
    (∀ sha ∈ input, ∀ d ∈ (collectGitDiffs gitLog fetch repo branch cap input).1,
        d.commit ≠ some sha) ∧
    (∀ sha ∈ (collectGitDiffs gitLog fetch repo branch cap input).2,
        sha ∈ input ∨ (fetch sha).isSome) ∧
    (∃ newIds, (∀ c ∈ newIds, (fetch c).isSome) ∧
        (collectGitDiffs gitLog fetch repo branch cap input).2
          <:+ dedupFirst input ++ newIds) ∧
    (input.length ≤ 200 →
        ((collectGitDiffs gitLog fetch repo branch cap input).2).length ≤ 200) := by
  cases gitLog with
  | none =>
    have hres : collectGitDiffs none fetch repo branch cap input
        = ([], dedupFirst input) := rfl
    rw [hres]
    refine ⟨by simp, fun sha hsha => Or.inl (mem_dedupFirst.mp hsha), ⟨[], by simp⟩, ?_⟩
    intro hlen
    exact le_trans (length_dedupFirst_le input) hlen
  | some out =>
    cases hempty : (trimJS out).isEmpty with
    | true =>
      have hres : collectGitDiffs (some out) fetch repo branch cap input
          = ([], dedupFirst input) := by
        simp [collectGitDiffs, hempty]
      rw [hres]
      refine ⟨by simp, fun sha hsha => Or.inl (mem_dedupFirst.mp hsha), ⟨[], by simp⟩, ?_⟩
      intro hlen
      exact le_trans (length_dedupFirst_le input) hlen
    | false =>
      set commits :=
        (((splitLinesJS (trimJS out)).map trimJS).filter (fun l => !l.isEmpty)).reverse
        with hc
      have hres : collectGitDiffs (some out) fetch repo branch cap input
          = ((processCommits fetch repo branch cap commits (dedupFirst input) []).2,
             trimProcessed
               (processCommits fetch repo branch cap commits (dedupFirst input) []).1) := by
        simp [collectGitDiffs, hempty, hc]
      rw [hres]
      refine ⟨?_, ?_, ?_, ?_⟩
      · intro sha hsha d hd
        rcases processCommits_diffs fetch repo branch cap commits (dedupFirst input) [] d hd
          with h | ⟨c, hcomm, hcp, _⟩
        · simp at h
        · intro heq
          rw [heq] at hcomm
          exact hcp (mem_dedupFirst.mpr (by injection hcomm with h; exact h ▸ hsha))
      · intro sha hsha
        have hmem : sha ∈ (processCommits fetch repo branch cap commits
            (dedupFirst input) []).1 :=
          (trimProcessed_suffix _).subset hsha
        rcases processCommits_new fetch repo branch cap commits (dedupFirst input) [] sha hmem
          with h | h
        · exact Or.inl (mem_dedupFirst.mp h)
        · exact Or.inr h
      · obtain ⟨l, hl, hok⟩ := processCommits_append fetch repo branch cap commits
          (dedupFirst input) []
        refine ⟨l, hok, ?_⟩
        rw [← hl]
        exact trimProcessed_suffix _
      · intro _
        exact trimProcessed_length_le _

/-- C2 witness: the amended theorem applied to a concrete call — processed
set `["a"]`, history listing commits `b` then `a`, every fetch succeeding.
The collector re-emits only `b`, and the returned set is `["a", "b"]`. -/
theorem C2_commit_dedup_witness :
    (∀ sha ∈ [str "a"], ∀ d ∈ (collectGitDiffs (some (str "b\na")) (fun c => some c)
        none none (str "CAP") [str "a"]).1, d.commit ≠ some sha) ∧
    (∀ sha ∈ (collectGitDiffs (some (str "b\na")) (fun c => some c)
        none none (str "CAP") [str "a"]).2, sha ∈ [str "a"] ∨ ((fun c => some c) sha).isSome) := by
  have h := C2_commit_dedup_amended (some (str "b\na")) (fun c => some c)
    none none (str "CAP") [str "a"]
  exact ⟨h.1, h.2.1⟩

/-- C8: when the history query itself fails (`git log` throws — the oracle
is `none`), the collector returns zero diffs and the processed set with
exactly the input's members (the materialization through the JS `Set`
preserves membership and first-occurrence order; duplicates collapse), and
the model is a total function — no error escapes the poll. -/
theorem C8_history_failure_returns_input (fetch : Chars → Option Chars)
    (repo branch : Option Chars) (cap : Chars) (input : List Chars) :
    (collectGitDiffs none fetch repo branch cap input).1 = [] ∧
    (∀ sha, sha ∈ (collectGitDiffs none fetch repo branch cap input).2 ↔ sha ∈ input) := by
  exact ⟨rfl, fun sha => mem_dedupFirst⟩

/-! ### Lemmas for the log tailer -/

theorem alookup_aset_self : ∀ (m : List (Chars × Nat)) (k : Chars) (v : Nat),
    alookup (aset m k v) k = some v := by
  intro m
  induction m with
  | nil => intro k v; simp [aset, alookup]
  | cons p rest ih =>
    intro k v
    obtain ⟨pk, pv⟩ := p
    simp only [aset]
    split
    · next h => simp [alookup]
    · next h => simp [alookup, h, ih]

theorem alookup_aset_ne : ∀ (m : List (Chars × Nat)) (k key : Chars) (v : Nat),
    k ≠ key → alookup (aset m key v) k = alookup m k := by
  intro m
  induction m with
  | nil =>
    intro k key v hne
    simp only [aset, alookup]
    simp [Ne.symm hne]
  | cons p rest ih =>
    intro k key v hne
    obtain ⟨pk, pv⟩ := p
    simp only [aset]
    split
    · next h =>
      subst h
      simp only [alookup]
      simp [Ne.symm hne]
    · next h =>
      simp only [alookup, ih _ _ _ hne]

theorem vkRelPath_inj {a b : Chars} (h : vkRelPath a = vkRelPath b) : a = b := by
  simpa [vkRelPath] using h

theorem tailStep_logs (sha1hex : Chars → Chars) (now : Chars)
    (st : List VKLogIngest × List (Chars × Nat)) (b : DirEntry) :
    ∃ new, (tailStep sha1hex now st b).1 = st.1 ++ new
      ∧ ∀ l ∈ new, l.source = some b.name := by
  unfold tailStep
  split
  · exact ⟨[], by simp⟩
  · dsimp only
    split <;> split
    · exact ⟨[], by simp⟩
    · refine ⟨_, rfl, ?_⟩
      intro l hl
      simp only [List.mem_map] at hl
      obtain ⟨line, _, rfl⟩ := hl
      rfl
    · exact ⟨[], by simp⟩
    · refine ⟨_, rfl, ?_⟩
      intro l hl
      simp only [List.mem_map] at hl
      obtain ⟨line, _, rfl⟩ := hl
      rfl

theorem tailStep_offsets_ne (sha1hex : Chars → Chars) (now : Chars)
    (st : List VKLogIngest × List (Chars × Nat)) (b : DirEntry) (k : Chars)
    (hne : k ≠ vkRelPath b.name) :
    alookup (tailStep sha1hex now st b).2 k = alookup st.2 k := by
  unfold tailStep
  split
  · rfl
  · dsimp only
    split <;> split
    all_goals exact alookup_aset_ne _ _ _ _ hne

theorem tailStep_offsets_isSome (sha1hex : Chars → Chars) (now : Chars)
    (st : List VKLogIngest × List (Chars × Nat)) (b : DirEntry) (k : Chars)
    (h : (alookup st.2 k).isSome) :
    (alookup (tailStep sha1hex now st b).2 k).isSome := by
  by_cases hk : k = vkRelPath b.name
  · subst hk
    unfold tailStep
    split
    · exact h
    · dsimp only
      split <;> split
      all_goals simp [alookup_aset_self]
  · rw [tailStep_offsets_ne sha1hex now st b k hk]
    exact h

theorem tailLoop_offsets_isSome (sha1hex : Chars → Chars) (now : Chars) :
    ∀ (entries : List DirEntry) (st : List VKLogIngest × List (Chars × Nat)) (k : Chars),
      (alookup st.2 k).isSome →
      (alookup (entries.foldl (tailStep sha1hex now) st).2 k).isSome := by
  intro entries
  induction entries with
  | nil => intro st k h; simpa using h
  | cons b rest ih =>
    intro st k h
    exact ih _ k (tailStep_offsets_isSome sha1hex now st b k h)

/-- Folding entries none of which carries the target's file name neither
adds a log attributed to the target nor touches the target's offset key. -/
theorem tailLoop_preserve (sha1hex : Chars → Chars) (now : Chars) (name : Chars) :
    ∀ (entries : List DirEntry) (st : List VKLogIngest × List (Chars × Nat)),
      name ∉ entries.map DirEntry.name →
      (entries.foldl (tailStep sha1hex now) st).1.filter
          (fun l => l.source == some name)
        = st.1.filter (fun l => l.source == some name)
      ∧ alookup (entries.foldl (tailStep sha1hex now) st).2 (vkRelPath name)
        = alookup st.2 (vkRelPath name) := by
  intro entries
  induction entries with
  | nil => intro st _; simp
  | cons b rest ih =>
    intro st hnot
    simp only [List.map_cons, List.mem_cons] at hnot
    push_neg at hnot
    obtain ⟨hne, hrest⟩ := hnot
    obtain ⟨res1, res2⟩ := ih (tailStep sha1hex now st b) hrest
    simp only [List.foldl_cons]
    constructor
    · rw [res1]
      obtain ⟨new, hnew, hsrc⟩ := tailStep_logs sha1hex now st b
      rw [hnew, List.filter_append]
      have : new.filter (fun l => l.source == some name) = [] := by
        apply List.filter_eq_nil_iff.mpr
        intro l hl
        rw [hsrc l hl]
        simpa using fun h => hne h.symm
      rw [this, List.append_nil]
    · rw [res2]
      exact tailStep_offsets_ne sha1hex now st b _ (fun h => hne (vkRelPath_inj h))

/-- The step on the target file itself, when the file has not grown (same
length as the recorded offset, or empty content): no logs are emitted and
the offset is rewritten to the current length. -/
theorem tailStep_target (sha1hex : Chars → Chars) (now : Chars)
    (st : List VKLogIngest × List (Chars × Nat)) (e : DirEntry) (n : Nat)
    (hfile : e.isFile = true) (hlog : List.isSuffixOf (str ".log") e.name = true)
    (hoff : alookup st.2 (vkRelPath e.name) = some n)
    (hsame : e.content.length = n ∨ e.content = []) :
    tailStep sha1hex now st e = (st.1, aset st.2 (vkRelPath e.name) e.content.length) := by
  unfold tailStep
  rw [hfile, hlog]
  simp only [Bool.and_self, Bool.not_true, Bool.false_eq_true, if_false]
  rw [hoff]
  simp only [Option.getD_some]
  rcases hsame with hlen | hempty
  · subst hlen
    simp
  · rw [hempty]
    simp

/-- C3 counterexample: the claim says a file whose byte length (2) is less
than or equal to the recorded offset (10) yields zero entries; the code
instead treats the shrink as a rotation, restarts from offset 0 and emits
the whole (non-empty) file — here one raw log entry. -/
theorem C3_shrunk_file_counterexample :
    ((collectVKLogs (fun _ => str "h") (str "NOW") [(str ".vk/a.log", 10)]
        (some [⟨str "a.log", true, str "hi"⟩])).1).length = 1 := by
  decide

/-- C3 (amended): for every log file whose current byte length EQUALS the
recorded offset for its relative path — or whose content is empty — one
tail poll emits zero raw log entries for that file and records the current
length as its offset (a file that shrank to a non-empty length is instead
re-read from offset 0); and the tailer returns the full updated offset map,
which retains an entry for every previously mapped path. -/
theorem C3_offset_monotonicity_amended (sha1hex : Chars → Chars) (now : Chars)
    (offsets0 : List (Chars × Nat)) (entries : List DirEntry) (e : DirEntry) (n : Nat)
    (hnodup : (entries.map DirEntry.name).Nodup)
    (hmem : e ∈ entries) (hfile : e.isFile = true)
    (hlog : List.isSuffixOf (str ".log") e.name = true)
    (hoff : alookup offsets0 (vkRelPath e.name) = some n)
    (hsame : e.content.length = n ∨ e.content = []) :
    ((collectVKLogs sha1hex now offsets0 (some entries)).1.filter
        (fun l => l.source == some e.name)) = [] ∧
    alookup (collectVKLogs sha1hex now offsets0 (some entries)).2 (vkRelPath e.name)
      = some e.content.length ∧
    (∀ k, (alookup offsets0 k).isSome →
      (alookup (collectVKLogs sha1hex now offsets0 (some entries)).2 k).isSome) := by
  have main : ∀ (entries : List DirEntry) (st : List VKLogIngest × List (Chars × Nat)),
      (entries.map DirEntry.name).Nodup → e ∈ entries →
      st.1.filter (fun l => l.source == some e.name) = [] →
      alookup st.2 (vkRelPath e.name) = some n →
      (entries.foldl (tailStep sha1hex now) st).1.filter
          (fun l => l.source == some e.name) = []
      ∧ alookup (entries.foldl (tailStep sha1hex now) st).2 (vkRelPath e.name)
          = some e.content.length := by
    intro entries
    induction entries with
    | nil => intro st _ hmem; exact absurd hmem (List.not_mem_nil e)
    | cons b rest ih =>
      intro st hnodup hmem hflt hlook
      simp only [List.map_cons, List.nodup_cons] at hnodup
      obtain ⟨hbnot, hrestnodup⟩ := hnodup
      rcases List.mem_cons.mp hmem with rfl | hmem
      · simp only [List.foldl_cons]
        rw [tailStep_target sha1hex now st e n hfile hlog hlook hsame]
        have hnot : e.name ∉ rest.map DirEntry.name := hbnot
        obtain ⟨h1, h2⟩ := tailLoop_preserve sha1hex now e.name rest
          (st.1, aset st.2 (vkRelPath e.name) e.content.length) hnot
        refine ⟨by rw [h1]; exact hflt, ?_⟩
        rw [h2]
        exact alookup_aset_self _ _ _
      · have hbne : b.name ≠ e.name := by
          intro h
          exact hbnot (h ▸ List.mem_map_of_mem DirEntry.name hmem)
        simp only [List.foldl_cons]
        apply ih (tailStep sha1hex now st b) hrestnodup hmem
        · obtain ⟨new, hnew, hsrc⟩ := tailStep_logs sha1hex now st b
          rw [hnew, List.filter_append, hflt]
          simp only [List.nil_append]
          apply List.filter_eq_nil_iff.mpr
          intro l hl
          rw [hsrc l hl]
          simpa using fun h => hbne h
        · rw [tailStep_offsets_ne sha1hex now st b _
            (fun h => hbne (vkRelPath_inj h).symm)]
          exact hlook
  have hres := main entries ([], offsets0) hnodup hmem (by simp) hoff
  exact ⟨hres.1, hres.2, fun k hk => tailLoop_offsets_isSome sha1hex now entries _ k hk⟩

/-- C3 witness: the amended theorem at a concrete poll — one `.log` file of
five bytes with recorded offset 5: no entries are emitted, the offset map
still carries the path at offset 5. -/
theorem C3_offset_monotonicity_witness :
    ((collectVKLogs (fun _ => str "h") (str "NOW") [(str ".vk/a.log", 5)]
        (some [⟨str "a.log", true, str "hello"⟩])).1.filter
        (fun l => l.source == some (str "a.log"))) = [] ∧
    alookup (collectVKLogs (fun _ => str "h") (str "NOW") [(str ".vk/a.log", 5)]
        (some [⟨str "a.log", true, str "hello"⟩])).2 (vkRelPath (str "a.log"))
      = some (str "hello").length ∧
    (∀ k, (alookup [(str ".vk/a.log", 5)] k).isSome →
      (alookup (collectVKLogs (fun _ => str "h") (str "NOW") [(str ".vk/a.log", 5)]
          (some [⟨str "a.log", true, str "hello"⟩])).2 k).isSome) :=
  C3_offset_monotonicity_amended (fun _ => str "h") (str "NOW") [(str ".vk/a.log", 5)]
    [⟨str "a.log", true, str "hello"⟩] ⟨str "a.log", true, str "hello"⟩ 5
    (by decide) (by decide) (by decide) (by decide) (by decide) (Or.inl (by decide))

/-! ### Diff counting (C4) -/

theorem mem_mapIdxFrom {α β : Type} {f : Nat → α → β} :
    ∀ {l : List α} {k : Nat} {b : β}, b ∈ mapIdxFrom f k l → ∃ i a, a ∈ l ∧ b = f i a := by
  intro l
  induction l with
  | nil => intro k b h; simp [mapIdxFrom] at h
  | cons x xs ih =>
    intro k b h
    rcases List.mem_cons.mp h with rfl | h
    · exact ⟨k, x, List.mem_cons_self x xs, rfl⟩
    · obtain ⟨i, a, ha, rfl⟩ := ih h
      exact ⟨i, a, List.mem_cons_of_mem x ha, rfl⟩

/-- Spec-side count, phrased from the specification text: the number of
lines starting with `+`, excluding the three-character `+++` header lines.
Compared against the implementation's `countPrefix`. -/
def specAdditions (chunk : List Chars) : Nat :=
  (chunk.filter (fun l =>
    List.isPrefixOf (str "+") l && !(List.isPrefixOf (str "+++") l))).length

/-- Spec-side count of removed lines: lines starting with `-`, excluding
the three-character `---` header lines. -/
def specDeletions (chunk : List Chars) : Nat :=
  (chunk.filter (fun l =>
    List.isPrefixOf (str "-") l && !(List.isPrefixOf (str "---") l))).length

/-- C4: splitting a unified diff on the file-header marker, every per-file
record carries exactly the spec's add/delete counts for its chunk, and
every event built from the records states the file path, the direction word
(`expansion` when additions are at least deletions, else `shrink`) and the
literal counts. -/
theorem C4_diff_counting (now : Chars) (diff : GitDiffIngest) :
    (diffChunks (splitLinesJS diff.content) ≠ [] →
      parseGitDiff now diff
        = (diffChunks (splitLinesJS diff.content)).map (fun pc =>
            { filePath := pc.1
              additions := specAdditions pc.2
              deletions := specDeletions pc.2
              createdAt := diff.capturedAt.getD now })) ∧
    (∀ (uuid : Nat → Chars) (ctx : DiffContext),
      ∀ ev ∈ toDigestEventsFromDiff uuid (parseGitDiff now diff) ctx,
        ∃ r ∈ parseGitDiff now diff,
          ev.message
            = r.filePath ++ str " "
              ++ (if r.deletions ≤ r.additions then str "expansion" else str "shrink")
              ++ str " (+" ++ natChars r.additions ++ str "/-" ++ natChars r.deletions
              ++ str ")") := by
  constructor
  · intro hne
    have hcnt : ∀ chunk : List Chars,
        countPrefixJS (str "+") chunk = specAdditions chunk
          ∧ countPrefixJS (str "-") chunk = specDeletions chunk := by
      intro chunk
      exact ⟨rfl, rfl⟩
    unfold parseGitDiff
    have hfalse : ((diffChunks (splitLinesJS diff.content)).map (fun pc =>
        ({ filePath := pc.1
           additions := countPrefixJS (str "+") pc.2
           deletions := countPrefixJS (str "-") pc.2
           createdAt := diff.capturedAt.getD now } : ParsedGitDiff))).isEmpty = false := by
      cases h : diffChunks (splitLinesJS diff.content) with
      | nil => exact absurd h hne
      | cons a l => simp
    simp only [hfalse, Bool.false_and, Bool.false_eq_true, if_false]
    rfl
  · intro uuid ctx ev hev
    obtain ⟨i, r, hr, rfl⟩ := mem_mapIdxFrom hev
    exact ⟨r, hr, rfl⟩

/-- C4 witness: the theorem applied to a diff holding exactly one added and
one removed line for `src/app.ts` — the record is `additions = 1,
deletions = 1` (the corresponding event message reads
`src/app.ts expansion (+1, -1 in the slash notation)`). -/
theorem C4_diff_counting_witness :
    parseGitDiff (str "NOW")
        { content := str "diff --git a/src/app.ts b/src/app.ts\n--- a/src/app.ts\n+++ b/src/app.ts\n@@\n+const a = 1;\n-const a = 0;"
          repository := none, branch := none, commit := none
          capturedAt := some (str "2024-05-04T12:00:00.000Z") }
      = [{ filePath := str "src/app.ts", additions := 1, deletions := 1
           createdAt := str "2024-05-04T12:00:00.000Z" }] := by
  rw [(C4_diff_counting (str "NOW")
    { content := str "diff --git a/src/app.ts b/src/app.ts\n--- a/src/app.ts\n+++ b/src/app.ts\n@@\n+const a = 1;\n-const a = 0;"
      repository := none, branch := none, commit := none
      capturedAt := some (str "2024-05-04T12:00:00.000Z") }).1 (by decide)]
  decide

/-! ### Task-identifier extraction (C5) -/

/-- C5 counterexample: the claim says that when a structured pattern
matches but captures no task identifier, the token scan runs over the
captured MESSAGE. On `[2024-01-01T00:00:00Z] BUG-123-hunter: nothing to
report` pattern 1 matches with message `nothing to report` and no captured
task id; the scan over that message finds nothing — yet the parser returns
`TASK-123`, because the code scans the entire raw line (finding `BUG-123`
inside the author name). -/
theorem C5_scan_over_line_counterexample :
    ((matchVKPatterns (str "[2024-01-01T00:00:00Z] BUG-123-hunter: nothing to report")).map
        (fun m => (trimJS m.message, m.taskId))
      = some (str "nothing to report", none)) ∧
    findTaskToken (str "nothing to report") = none ∧
    (parseVKLine (fun _ => none) (str "NOW") none
        (str "[2024-01-01T00:00:00Z] BUG-123-hunter: nothing to report")).taskId
      = some (str "TASK-123") := by
  exact ⟨by decide, by decide, by decide⟩

/-- C5 (amended): a line matching no structured pattern becomes an event
whose message is the whole line, with no author or severity, and whose task
id is the `(TASK|ISSUE|BUG)[-#]?digits` token scan over the line normalized
to `TASK-digits`; and when a pattern matches but captures no task id, the
same token scan runs over the ENTIRE RAW LINE (not the captured message) as
the fallback. -/
theorem C5_task_extraction_amended (parseIso : Chars → Option Chars) (now : Chars)
    (receivedAt : Option Chars) (line : Chars) :
    (matchVKPatterns line = none →
      parseVKLine parseIso now receivedAt line
        = { message := line
            createdAt := receivedAt.getD now
            author := none
            severity := none
            taskId := (findTaskToken line).map (fun ds => str "TASK-" ++ ds) }) ∧
    (∀ m, matchVKPatterns line = some m → m.taskId = none →
      (parseVKLine parseIso now receivedAt line).taskId
        = (findTaskToken line).map (fun ds => str "TASK-" ++ ds)) := by
  constructor
  · intro hnone
    simp [parseVKLine, hnone]
  · intro m hm htid
    simp [parseVKLine, hm, htid]

/-- C5 witness: the amended theorem applied to the claim's own example — a
line containing `TASK-1234` that matches no structured pattern yields an
event whose task id is `TASK-1234` and whose message is the whole line. -/
theorem C5_task_extraction_witness :
    parseVKLine (fun _ => none) (str "NOW") (some (str "RCV"))
        (str "Investigating TASK-1234 regression")
      = { message := str "Investigating TASK-1234 regression"
          createdAt := str "RCV"
          author := none
          severity := none
          taskId := some (str "TASK-1234") } := by
  rw [(C5_task_extraction_amended (fun _ => none) (str "NOW") (some (str "RCV"))
    (str "Investigating TASK-1234 regression")).1 (by decide)]
  decide

/-! ### Query filtering (C6) -/

theorem charsLe_total : ∀ a b : Chars, (charsLe a b || charsLe b a) = true := by
  intro a
  induction a with
  | nil => intro b; simp [charsLe]
  | cons x xs ih =>
    intro b
    cases b with
    | nil => simp [charsLe]
    | cons y ys =>
      simp only [charsLe]
      rcases lt_trichotomy x y with h | h | h
      · simp [h]
      · subst h
        simp [lt_irrefl, ih ys]
      · simp [h, not_lt_of_gt h]

theorem charsLe_trans :
    ∀ a b c : Chars, charsLe a b = true → charsLe b c = true → charsLe a c = true := by
  intro a
  induction a with
  | nil => intro b c _ _; simp [charsLe]
  | cons x xs ih =>
    intro b c h1 h2
    cases b with
    | nil => simp [charsLe] at h1
    | cons y ys =>
      cases c with
      | nil => simp [charsLe] at h2
      | cons z zs =>
        simp only [charsLe] at h1 h2 ⊢
        rcases lt_trichotomy x y with hxy | hxy | hxy
        · rcases lt_trichotomy y z with hyz | hyz | hyz
          · simp [lt_trans hxy hyz]
          · subst hyz
            simp [hxy]
          · rw [if_neg (not_lt_of_gt hyz), if_pos hyz] at h2
            exact absurd h2 (by simp)
        · subst hxy
          rcases lt_trichotomy x z with hxz | hxz | hxz
          · simp [hxz]
          · subst hxz
            rw [if_neg (lt_irrefl x), if_neg (lt_irrefl x)] at h1 h2 ⊢
            exact ih ys zs h1 h2
          · rw [if_neg (not_lt_of_gt hxz), if_pos hxz] at h2
            exact absurd h2 (by simp)
        · rw [if_neg (not_lt_of_gt hxy), if_pos hxy] at h1
          exact absurd h1 (by simp)

/-- The `type IN (..)` clause as a proposition: constraining only when a
nonempty list was supplied. -/
def typeCondHolds (types : Option (List Chars)) (e : DigestEvent) : Prop :=
  match types with
  | some (t :: ts) => e.type ∈ t :: ts
  | _ => True

/-- The `task_id IN (..)` clause as a proposition: a NULL `task_id` never
satisfies SQL `IN`. -/
def taskCondHolds (taskIds : Option (List Chars)) (e : DigestEvent) : Prop :=
  match taskIds with
  | some (t :: ts) => ∃ tid, e.taskId = some tid ∧ tid ∈ t :: ts
  | _ => True

theorem eventPasses_iff (since : Chars) (types taskIds : Option (List Chars))
    (e : DigestEvent) :
    eventPasses since types taskIds e = true ↔
      charsLe since e.createdAt = true ∧ typeCondHolds types e ∧ taskCondHolds taskIds e := by
  unfold eventPasses typeCondHolds taskCondHolds
  cases types with
  | none =>
    cases taskIds with
    | none => simp
    | some ts =>
      cases ts with
      | nil => simp
      | cons t tl =>
        cases htid : e.taskId with
        | none => simp [htid]
        | some tid => simp [htid, List.contains, List.elem_eq_mem]
  | some ty =>
    cases ty with
    | nil =>
      cases taskIds with
      | none => simp
      | some ts =>
        cases ts with
        | nil => simp
        | cons t tl =>
          cases htid : e.taskId with
          | none => simp [htid]
          | some tid => simp [htid, List.contains, List.elem_eq_mem]
    | cons ty0 tyl =>
      cases taskIds with
      | none => simp [List.contains, List.elem_eq_mem]
      | some ts =>
        cases ts with
        | nil => simp [List.contains, List.elem_eq_mem]
        | cons t tl =>
          cases htid : e.taskId with
          | none => simp [htid, List.contains, List.elem_eq_mem]
          | some tid => simp [htid, List.contains, List.elem_eq_mem, and_assoc]

/-- C6 counterexample: the claim reads the type filter as list membership
whenever a list is given; supplying the EMPTY list must therefore return
no events, but the code treats an empty array as falsy, adds no clause, and
returns the stored event whose type `b` is not a member of `[]`. -/
theorem C6_empty_filter_counterexample :
    listEvents [⟨str "e1", str "b", str "s", str "m", str "2024-01-01", none⟩]
        (str "") none (some []) none
      = [⟨str "e1", str "b", str "s", str "m", str "2024-01-01", none⟩]
    ∧ (str "b") ∉ ([] : List Chars) := by
  refine ⟨?_, by simp⟩
  simp [listEvents, eventPasses, charsLe]

/-- C6 (amended): with no (or zero) limit, the returned events are exactly
the stored events whose `createdAt` is at or after the watermark, whose
type passes the type clause and whose task id passes the task clause — a
clause constrains only when its list is given AND nonempty (an empty list
is JS-falsy and adds no restriction); the result is ordered by event time
descending; and a positive limit returns exactly the first `n` of the
unlimited result. -/
theorem C6_query_filtering_amended (table : EventTable) (since : Chars)
    (types taskIds : Option (List Chars)) :
    (∀ e, e ∈ listEvents table since none types taskIds ↔
        e ∈ table ∧ charsLe since e.createdAt = true
          ∧ typeCondHolds types e ∧ taskCondHolds taskIds e) ∧
    (∀ limit, (listEvents table since limit types taskIds).Pairwise
        (fun a b => charsLe b.createdAt a.createdAt = true)) ∧
    (∀ n, 0 < n →
        listEvents table since (some n) types taskIds
          = (listEvents table since none types taskIds).take n) := by
  refine ⟨?_, ?_, ?_⟩
  · intro e
    unfold listEvents
    rw [List.mem_mergeSort, List.mem_filter, eventPasses_iff]
  · intro limit
    have hsorted : ((table.filter (eventPasses since types taskIds)).mergeSort
        (fun a b => charsLe b.createdAt a.createdAt)).Pairwise
        (fun a b => charsLe b.createdAt a.createdAt = true) := by
      apply List.sorted_mergeSort
      · intro a b c hab hbc
        exact charsLe_trans c.createdAt b.createdAt a.createdAt hbc hab
      · intro a b
        rw [Bool.or_comm]
        exact charsLe_total a.createdAt b.createdAt
    unfold listEvents
    match limit with
    | none => exact hsorted
    | some 0 => exact hsorted
    | some (n + 1) => exact hsorted.sublist (List.take_sublist _ _)
  · intro n hn
    match n, hn with
    | n + 1, _ => rfl

/-- C6 witness: the amended theorem at a concrete store of one type-`a` and
one type-`b` event, queried with type filter `[a]` since the epoch: the
type-`a` event is in the result, the type-`b` event is not. -/
theorem C6_query_filtering_witness :
    ((⟨str "e1", str "a", str "s", str "m", str "2024-01-02", none⟩ : DigestEvent)
        ∈ listEvents
          [⟨str "e1", str "a", str "s", str "m", str "2024-01-02", none⟩,
           ⟨str "e2", str "b", str "s", str "m", str "2024-01-01", none⟩]
          (str "") none (some [str "a"]) none) ∧
    ¬ ((⟨str "e2", str "b", str "s", str "m", str "2024-01-01", none⟩ : DigestEvent)
        ∈ listEvents
          [⟨str "e1", str "a", str "s", str "m", str "2024-01-02", none⟩,
           ⟨str "e2", str "b", str "s", str "m", str "2024-01-01", none⟩]
          (str "") none (some [str "a"]) none) := by
  constructor
  · refine ((C6_query_filtering_amended _ _ _ _).1 _).mpr ⟨by simp, by decide, ?_, ?_⟩
    · show str "a" ∈ [str "a"]
      decide
    · show True
      trivial
  · intro hmem
    have h := ((C6_query_filtering_amended
      [⟨str "e1", str "a", str "s", str "m", str "2024-01-02", none⟩,
       ⟨str "e2", str "b", str "s", str "m", str "2024-01-01", none⟩]
      (str "") (some [str "a"]) none).1 _).mp hmem
    have hty : str "b" ∈ [str "a"] := h.2.2.1
    exact absurd hty (by decide)

/-! ### Summary replacement (C7, C10) -/

/-- The rows the `recordSummaries` loop writes, with each record's
`randomUUID()`/`new Date()` defaults resolved by position. -/
def resolvedRows (uuid : Nat → Chars) (now : Chars) (batch : List SummaryRecord) :
    List SummaryRow :=
  mapIdxFrom (fun k item => resolveSummary (uuid k) now item) 0 batch

theorem summaryLoop_eq_fold (replaceExisting : Bool) (uuid : Nat → Chars) (now : Chars) :
    ∀ (batch : List SummaryRecord) (table : SummaryTable) (k : Nat),
      summaryLoop replaceExisting uuid now table k batch
        = (mapIdxFrom (fun i item => resolveSummary (uuid i) now item) k batch).foldl
            (summaryStep replaceExisting) table := by
  intro batch
  induction batch with
  | nil => intro table k; rfl
  | cons item rest ih =>
    intro table k
    simp only [summaryLoop, mapIdxFrom, List.foldl_cons]
    exact ih _ _

/-- The last row of the batch carrying the given task id. -/
def lastWithTask (t : Chars) (rows : List SummaryRow) : Option SummaryRow :=
  (rows.filter (fun r => r.taskId == t)).getLast?

theorem map_replace_tfree (t : Chars) (r : SummaryRow) (hr : r.taskId = t) :
    ∀ T : SummaryTable, (∀ x ∈ T, ¬ x.taskId = t) → (T.map SummaryRow.id).Nodup →
      T.any (fun x => x.id = r.id) = true →
      (T.map (fun x => if x.id = r.id then r else x)).filter
          (fun x => x.taskId == t) = [r] := by
  intro T
  induction T with
  | nil => intro _ _ h; simp at h
  | cons x T ih =>
    intro hT hnd hany
    simp only [List.map_cons, List.nodup_cons, List.mem_map] at hnd
    obtain ⟨hxid, hndT⟩ := hnd
    by_cases hid : x.id = r.id
    · simp only [List.map_cons, if_pos hid, List.filter_cons]
      have hkeep : (r.taskId == t) = true := by simp [hr]
      rw [hkeep]
      have hrest : (T.map (fun x => if x.id = r.id then r else x)).filter
          (fun x => x.taskId == t) = [] := by
        apply List.filter_eq_nil_iff.mpr
        intro y hy
        simp only [List.mem_map] at hy
        obtain ⟨z, hz, rfl⟩ := hy
        have hzid : ¬ z.id = r.id := by
          intro h
          exact hxid ⟨z, hz, by rw [h, hid]⟩
        rw [if_neg hzid]
        simpa using hT z (List.mem_cons_of_mem x hz)
      simp [hrest]
    · simp only [List.map_cons, if_neg hid, List.filter_cons]
      have hdrop : (x.taskId == t) = false := by
        simpa using hT x (List.mem_cons_self x T)
      rw [hdrop]
      simp only [List.any_cons] at hany
      rw [Bool.or_eq_true] at hany
      rcases hany with h | h
      · exact absurd (of_decide_eq_true h) hid
      · exact ih (fun y hy => hT y (List.mem_cons_of_mem x hy)) hndT h

theorem upsert_into_tfree (t : Chars) (r : SummaryRow) (hr : r.taskId = t)
    (T : SummaryTable) (hT : ∀ x ∈ T, ¬ x.taskId = t)
    (hnd : (T.map SummaryRow.id).Nodup) :
    (upsertSummary T r).filter (fun x => x.taskId == t) = [r] := by
  unfold upsertSummary
  split
  · next hany => exact map_replace_tfree t r hr T hT hnd hany
  · rw [List.filter_append]
    have h1 : T.filter (fun x => x.taskId == t) = [] := by
      apply List.filter_eq_nil_iff.mpr
      intro y hy
      simpa using hT y hy
    have h2 : [r].filter (fun x => x.taskId == t) = [r] := by
      simp [hr]
    rw [h1, h2, List.nil_append]

theorem taskId_isEmpty_false {t : Chars} (ht : t ≠ []) {r : SummaryRow}
    (hr : r.taskId = t) : r.taskId.isEmpty = false := by
  rw [hr]
  cases t with
  | nil => exact absurd rfl ht
  | cons c cs => rfl

/-- Lemma A: the replace-mode step on a record of task `t` leaves exactly
that record's row as the task's summaries. -/
theorem summaryStep_last (t : Chars) (ht : t ≠ []) (table : SummaryTable)
    (r : SummaryRow) (hr : r.taskId = t) (hnd : (table.map SummaryRow.id).Nodup) :
    (summaryStep true table r).filter (fun x => x.taskId == t) = [r] := by
  have hstep : summaryStep true table r
      = upsertSummary (table.filter (fun x => x.taskId ≠ r.taskId)) r := by
    unfold summaryStep
    simp [taskId_isEmpty_false ht hr]
  rw [hstep]
  apply upsert_into_tfree t r hr
  · intro x hx
    have := List.of_mem_filter hx
    simp only [ne_eq, decide_not, Bool.not_eq_eq_eq_not, Bool.not_true,
      decide_eq_false_iff_not] at this
    rw [hr] at this
    exact this
  · exact List.Nodup.sublist ((List.filter_sublist table).map SummaryRow.id) hnd

theorem summaryStep_subset (replaceExisting : Bool) (table : SummaryTable)
    (r x : SummaryRow) (hx : x ∈ summaryStep replaceExisting table r) :
    x ∈ table ∨ x = r := by
  unfold summaryStep upsertSummary at hx
  set D := if replaceExisting && !r.taskId.isEmpty then
    table.filter (fun q => q.taskId ≠ r.taskId) else table with hD
  have hDsub : ∀ y, y ∈ D → y ∈ table := by
    intro y hy
    rw [hD] at hy
    revert hy
    split
    · exact fun hy => List.mem_of_mem_filter hy
    · exact id
  revert hx
  dsimp only
  split
  · intro hx
    simp only [List.mem_map] at hx
    obtain ⟨z, hz, rfl⟩ := hx
    by_cases hid : z.id = r.id
    · rw [if_pos hid]
      exact Or.inr rfl
    · rw [if_neg hid]
      exact Or.inl (hDsub z hz)
  · intro hx
    rcases List.mem_append.mp hx with h | h
    · exact Or.inl (hDsub _ h)
    · simp only [List.mem_singleton] at h
      exact Or.inr h

/-- The ids of a summary table are unchanged by an in-place replacement and
extended only by fresh ids, so the primary-key invariant (no duplicate ids)
survives each loop step. -/
theorem summaryStep_ids_nodup (replaceExisting : Bool) (table : SummaryTable)
    (r : SummaryRow) (hnd : (table.map SummaryRow.id).Nodup) :
    ((summaryStep replaceExisting table r).map SummaryRow.id).Nodup := by
  unfold summaryStep upsertSummary
  set D := if replaceExisting && !r.taskId.isEmpty then
    table.filter (fun q => q.taskId ≠ r.taskId) else table with hD
  have hndD : (D.map SummaryRow.id).Nodup := by
    rw [hD]
    split
    · exact List.Nodup.sublist ((List.filter_sublist table).map SummaryRow.id) hnd
    · exact hnd
  dsimp only
  split
  · next hany =>
    have hids : (D.map (fun x => if x.id = r.id then r else x)).map SummaryRow.id
        = D.map SummaryRow.id := by
      rw [List.map_map]
      apply List.map_congr_left
      intro x _
      by_cases hid : x.id = r.id
      · simp [hid]
      · simp [hid]
    rw [hids]
    exact hndD
  · next hany =>
    rw [List.map_append]
    simp only [List.map_cons, List.map_nil]
    apply List.Nodup.append hndD (by simp)
    intro a ha hb
    simp only [List.mem_singleton] at hb
    subst hb
    simp only [List.mem_map] at ha
    obtain ⟨z, hz, hzid⟩ := ha
    exact hany (List.any_eq_true.mpr ⟨z, hz, by simp [hzid]⟩)

theorem summaryFold_ids_nodup (replaceExisting : Bool) :
    ∀ (rows : List SummaryRow) (table : SummaryTable),
      (table.map SummaryRow.id).Nodup →
      ((rows.foldl (summaryStep replaceExisting) table).map SummaryRow.id).Nodup := by
  intro rows
  induction rows with
  | nil => intro table h; exact h
  | cons r rest ih =>
    intro table h
    exact ih _ (summaryStep_ids_nodup replaceExisting table r h)

theorem filter_map_replace_ne (t : Chars) (r : SummaryRow) (hr : ¬ r.taskId = t) :
    ∀ D : SummaryTable,
      (D.map (fun x => if x.id = r.id then r else x)).filter (fun x => x.taskId == t)
        = (D.filter (fun x => x.taskId == t)).filter (fun x => ¬ x.id = r.id) := by
  intro D
  induction D with
  | nil => rfl
  | cons x T ihD =>
    by_cases hxid : x.id = r.id <;> by_cases hxt : x.taskId = t <;>
      simp [hxid, hxt, hr, ihD]

/-- Lemma B: a replace-mode step on a record of a DIFFERENT task, whose id
does not collide with the task's unique row, preserves that row as the
task's only summary. -/
theorem summaryStep_preserves_unique (t : Chars) (table : SummaryTable)
    (r row0 : SummaryRow) (hr : ¬ r.taskId = t) (hid : ¬ row0.id = r.id)
    (huniq : table.filter (fun x => x.taskId == t) = [row0]) :
    (summaryStep true table r).filter (fun x => x.taskId == t) = [row0] := by
  unfold summaryStep upsertSummary
  dsimp only
  have hDuniq : ∀ D : SummaryTable, D = table.filter (fun q => q.taskId ≠ r.taskId)
      ∨ D = table → D.filter (fun x => x.taskId == t) = [row0] := by
    rintro D (rfl | rfl)
    · rw [List.filter_filter, ← huniq]
      apply List.filter_congr
      intro x _
      by_cases hxt : x.taskId = t
      · have hx2 : ¬ t = r.taskId := fun h => hr h.symm
        simp [hxt, hx2]
      · simp [hxt]
    · exact huniq
  split
  · next hany =>
    split
    · next =>
      rw [filter_map_replace_ne t r hr, hDuniq _ (Or.inl rfl)]
      simp [hid]
    · next =>
      rw [List.filter_append, hDuniq _ (Or.inl rfl)]
      have h3 : [r].filter (fun x => x.taskId == t) = [] := by simp [hr]
      rw [h3]
      simp
  · next hany =>
    split
    · next =>
      rw [filter_map_replace_ne t r hr, hDuniq _ (Or.inr rfl)]
      simp [hid]
    · next =>
      rw [List.filter_append, hDuniq _ (Or.inr rfl)]
      have h3 : [r].filter (fun x => x.taskId == t) = [] := by simp [hr]
      rw [h3]
      simp

/-- Replace-mode fold: the surviving summaries of task `t` are exactly the
batch's LAST row for `t` (the per-record delete wipes out earlier rows of
the same batch as well as the prior generation). -/
theorem summaryFold_last (t : Chars) (ht : t ≠ []) :
    ∀ (rows : List SummaryRow) (table : SummaryTable) (r0 : SummaryRow),
      (table.map SummaryRow.id).Nodup → (rows.map SummaryRow.id).Nodup →
      lastWithTask t rows = some r0 →
      (rows.foldl (summaryStep true) table).filter (fun x => x.taskId == t) = [r0] := by
  intro rows
  induction rows using List.reverseRecOn with
  | nil => intro table r0 _ _ hlast; simp [lastWithTask] at hlast
  | append_singleton rs r ih =>
    intro table r0 hndt hndr hlast
    rw [List.foldl_append, List.foldl_cons, List.foldl_nil]
    rw [List.map_append] at hndr
    rw [List.nodup_append] at hndr
    obtain ⟨hndrs, _, hdisj⟩ := hndr
    by_cases hrt : r.taskId = t
    · have hr0 : r0 = r := by
        unfold lastWithTask at hlast
        rw [List.filter_append] at hlast
        have : [r].filter (fun x => x.taskId == t) = [r] := by simp [hrt]
        rw [this, List.getLast?_concat] at hlast
        exact (Option.some_inj.mp hlast).symm
      subst hr0
      exact summaryStep_last t ht _ r0 hrt
        (summaryFold_ids_nodup true rs table hndt)
    · have hlast2 : lastWithTask t rs = some r0 := by
        unfold lastWithTask at hlast ⊢
        rw [List.filter_append] at hlast
        have : [r].filter (fun x => x.taskId == t) = [] := by simp [hrt]
        rw [this, List.append_nil] at hlast
        exact hlast
      have hr0mem : r0 ∈ rs := by
        have h1 : r0 ∈ rs.filter (fun x => x.taskId == t) := by
          unfold lastWithTask at hlast2
          exact List.mem_of_getLast?_eq_some hlast2
        exact List.mem_of_mem_filter h1
      have hid : ¬ r0.id = r.id := by
        intro h
        exact hdisj (List.mem_map_of_mem SummaryRow.id hr0mem) (by simp [h])
      exact summaryStep_preserves_unique t _ r r0 hrt hid
        (ih table r0 hndt hndrs hlast2)

/-- C7 counterexample: the claim says that after a replace-mode call the
batch's new SET of records survives per task; but the delete runs per
record, so a batch carrying TWO records for task `T` keeps only the second:
the first new record `s1` is wiped by the second record's delete. -/
theorem C7_batch_overwrites_counterexample :
    ((recordSummaries (fun i => natChars i) (str "NOW") []
        [{ id := some (str "s1"), taskId := str "T", status := str "doing"
           summaryText := str "one", risk := str "low", nextSteps := []
           diffSummary := str "d1", createdAt := some (str "2024-01-01") },
         { id := some (str "s2"), taskId := str "T", status := str "doing"
           summaryText := str "two", risk := str "low", nextSteps := []
           diffSummary := str "d2", createdAt := some (str "2024-01-02") }]
        (some (some true))).map SummaryRow.id) = [str "s2"] := by
  decide

/-- C7 (amended): with replace mode requested, each record's insertion is
preceded by deleting ALL rows of that record's task — the prior generation
and any rows inserted earlier in the same batch alike — so after the call
the surviving summaries of every task referenced in the batch are exactly
the batch's LAST record for that task (assuming the resolved record ids are
pairwise distinct and the store satisfies its primary-key invariant). -/
theorem C7_replace_mode_amended (uuid : Nat → Chars) (now : Chars)
    (table : SummaryTable) (batch : List SummaryRecord) (t : Chars) (r0 : SummaryRow)
    (ht : t ≠ [])
    (hndTable : (table.map SummaryRow.id).Nodup)
    (hndBatch : ((resolvedRows uuid now batch).map SummaryRow.id).Nodup)
    (hlast : lastWithTask t (resolvedRows uuid now batch) = some r0) :
    (recordSummaries uuid now table batch (some (some true))).filter
        (fun x => x.taskId == t) = [r0] := by
  unfold recordSummaries
  have hrepl : ((some (some true) : Option (Option Bool)).bind id).getD true = true := rfl
  rw [hrepl, summaryLoop_eq_fold]
  exact summaryFold_last t ht (resolvedRows uuid now batch) table r0
    hndTable hndBatch hlast

/-- C7 witness: the amended theorem at a concrete call — one prior
generation row for task `T` plus a two-record batch for `T`: only the
batch's last record survives. -/
theorem C7_replace_mode_witness :
    (recordSummaries (fun i => natChars i) (str "NOW")
        [{ id := str "old", taskId := str "T", status := str "done"
           summaryText := str "prior", risk := str "low", nextSteps := []
           diffSummary := str "d0", createdAt := str "2023-12-31" }]
        [{ id := some (str "s1"), taskId := str "T", status := str "doing"
           summaryText := str "one", risk := str "low", nextSteps := []
           diffSummary := str "d1", createdAt := some (str "2024-01-01") },
         { id := some (str "s2"), taskId := str "T", status := str "doing"
           summaryText := str "two", risk := str "low", nextSteps := []
           diffSummary := str "d2", createdAt := some (str "2024-01-02") }]
        (some (some true))).filter (fun x => x.taskId == str "T")
      = [{ id := str "s2", taskId := str "T", status := str "doing"
           summaryText := str "two", risk := str "low", nextSteps := []
           diffSummary := str "d2", createdAt := str "2024-01-02" }] := by
  exact C7_replace_mode_amended (fun i => natChars i) (str "NOW") _ _ (str "T") _
    (by decide) (by decide) (by decide) (by decide)

theorem summaryFold_not_mem (p : SummaryRow) :
    ∀ (rows : List SummaryRow) (table : SummaryTable),
      p ∉ table → (∀ r ∈ rows, ¬ r.id = p.id) →
      p ∉ rows.foldl (summaryStep true) table := by
  intro rows
  induction rows with
  | nil => intro table h _; exact h
  | cons r rest ih =>
    intro table hp hids
    apply ih _ ?_ (fun q hq => hids q (List.mem_cons_of_mem r hq))
    intro hmem
    rcases summaryStep_subset true table r p hmem with h | h
    · exact hp h
    · exact hids r (List.mem_cons_self r rest) (by rw [h])

theorem summaryStep_deletes_taskmate (p : SummaryRow) (r : SummaryRow)
    (table : SummaryTable) (htask : r.taskId = p.taskId) (hne : ¬ p.taskId = [])
    (hid : ¬ r.id = p.id) :
    p ∉ summaryStep true table r := by
  unfold summaryStep upsertSummary
  have hempty : r.taskId.isEmpty = false := by
    rw [htask]
    cases h : p.taskId with
    | nil => exact absurd h hne
    | cons c cs => rfl
  simp only [hempty, Bool.not_false, Bool.and_true, if_true]
  have hpD : p ∉ table.filter (fun q => q.taskId ≠ r.taskId) := by
    intro hp
    have := List.of_mem_filter hp
    simp only [ne_eq, decide_not, Bool.not_eq_eq_eq_not, Bool.not_true,
      decide_eq_false_iff_not] at this
    exact this htask.symm
  split
  · intro hmem
    simp only [List.mem_map] at hmem
    obtain ⟨z, hz, hzp⟩ := hmem
    by_cases hzid : z.id = r.id
    · rw [if_pos hzid] at hzp
      exact hid (by rw [hzp])
    · rw [if_neg hzid] at hzp
      exact hpD (hzp ▸ hz)
  · intro hmem
    rcases List.mem_append.mp hmem with h | h
    · exact hpD h
    · simp only [List.mem_singleton] at h
      exact hid (by rw [h])

theorem summaryFold_deletes (p : SummaryRow) (hne : ¬ p.taskId = []) :
    ∀ (rows : List SummaryRow) (table : SummaryTable),
      (∃ r ∈ rows, r.taskId = p.taskId) → (∀ r ∈ rows, ¬ r.id = p.id) →
      p ∉ rows.foldl (summaryStep true) table := by
  intro rows
  induction rows with
  | nil => intro table hex _; simp at hex
  | cons r rest ih =>
    intro table hex hids
    by_cases hrt : r.taskId = p.taskId
    · rw [List.foldl_cons]
      apply summaryFold_not_mem p rest _
        (summaryStep_deletes_taskmate p r table hrt hne
          (hids r (List.mem_cons_self r rest)))
        (fun q hq => hids q (List.mem_cons_of_mem r hq))
    · rw [List.foldl_cons]
      apply ih _ ?_ (fun q hq => hids q (List.mem_cons_of_mem r hq))
      rcases hex with ⟨q, hq, hqt⟩
      rcases List.mem_cons.mp hq with rfl | hq2
      · exact absurd hqt hrt
      · exact ⟨q, hq2, hqt⟩

/-- C10: calling `recordSummaries` with no persistence options behaves
exactly as if `replaceExisting: true` had been requested, and consequently
every previously stored summary row of a task referenced (with a JS-truthy,
nonempty task id) by the batch is gone after the call, provided no batch
record reuses that row's primary key. -/
theorem C10_default_replace (uuid : Nat → Chars) (now : Chars)
    (table : SummaryTable) (batch : List SummaryRecord) :
    (recordSummaries uuid now table batch none
      = recordSummaries uuid now table batch (some (some true))) ∧
    (∀ p ∈ table, ¬ p.taskId = [] →
      (∃ r ∈ resolvedRows uuid now batch, r.taskId = p.taskId) →
      (∀ r ∈ resolvedRows uuid now batch, ¬ r.id = p.id) →
      p ∉ recordSummaries uuid now table batch none) := by
  constructor
  · rfl
  · intro p _ hne hex hids
    unfold recordSummaries
    have hrepl : ((none : Option (Option Bool)).bind id).getD true = true := rfl
    rw [hrepl, summaryLoop_eq_fold]
    exact summaryFold_deletes p hne (resolvedRows uuid now batch) table hex hids

/-- C10 witness: with no options, a prior row for task `T` is deleted by a
one-record batch for `T`, and the call equals the explicit replace-mode
call. -/
theorem C10_default_replace_witness :
    (recordSummaries (fun i => natChars i) (str "NOW")
        [{ id := str "old", taskId := str "T", status := str "done"
           summaryText := str "prior", risk := str "low", nextSteps := []
           diffSummary := str "d0", createdAt := str "2023-12-31" }]
        [{ id := some (str "s1"), taskId := str "T", status := str "doing"
           summaryText := str "one", risk := str "low", nextSteps := []
           diffSummary := str "d1", createdAt := some (str "2024-01-01") }] none
      = recordSummaries (fun i => natChars i) (str "NOW")
        [{ id := str "old", taskId := str "T", status := str "done"
           summaryText := str "prior", risk := str "low", nextSteps := []
           diffSummary := str "d0", createdAt := str "2023-12-31" }]
        [{ id := some (str "s1"), taskId := str "T", status := str "doing"
           summaryText := str "one", risk := str "low", nextSteps := []
           diffSummary := str "d1", createdAt := some (str "2024-01-01") }]
        (some (some true))) ∧
    ({ id := str "old", taskId := str "T", status := str "done"
       summaryText := str "prior", risk := str "low", nextSteps := []
       diffSummary := str "d0", createdAt := str "2023-12-31" } : SummaryRow)
      ∉ recordSummaries (fun i => natChars i) (str "NOW")
        [{ id := str "old", taskId := str "T", status := str "done"
           summaryText := str "prior", risk := str "low", nextSteps := []
           diffSummary := str "d0", createdAt := str "2023-12-31" }]
        [{ id := some (str "s1"), taskId := str "T", status := str "doing"
           summaryText := str "one", risk := str "low", nextSteps := []
           diffSummary := str "d1", createdAt := some (str "2024-01-01") }] none := by
  refine ⟨(C10_default_replace (fun i => natChars i) (str "NOW") _ _).1, ?_⟩
  exact (C10_default_replace (fun i => natChars i) (str "NOW") _ _).2 _
    (by decide) (by decide) (by decide) (by decide)

/-! ### Ingest result re-query (C9) -/

theorem upsertEvent_id_mem (table : EventTable) (e : DigestEvent) :
    ∃ row ∈ upsertEvent table e, row.id = e.id := by
  unfold upsertEvent
  split
  · next hany =>
    rw [List.any_eq_true] at hany
    obtain ⟨z, hz, hzid⟩ := hany
    refine ⟨e, ?_, rfl⟩
    rw [List.mem_map]
    exact ⟨z, hz, by rw [if_pos (of_decide_eq_true hzid)]⟩
  · exact ⟨e, by simp, rfl⟩

theorem upsertEvent_id_preserved (table : EventTable) (e : DigestEvent) (x : Chars)
    (h : ∃ row ∈ table, row.id = x) : ∃ row ∈ upsertEvent table e, row.id = x := by
  obtain ⟨row, hrow, hid⟩ := h
  unfold upsertEvent
  split
  · by_cases hre : row.id = e.id
    · refine ⟨e, ?_, by rw [← hid, hre]⟩
      rw [List.mem_map]
      exact ⟨row, hrow, by rw [if_pos hre]⟩
    · refine ⟨row, ?_, hid⟩
      rw [List.mem_map]
      exact ⟨row, hrow, by rw [if_neg hre]⟩
  · exact ⟨row, List.mem_append_left _ hrow, hid⟩

theorem foldl_upsertEvent_id_preserved :
    ∀ (events : List DigestEvent) (table : EventTable) (x : Chars),
      (∃ row ∈ table, row.id = x) →
      ∃ row ∈ events.foldl upsertEvent table, row.id = x := by
  intro events
  induction events with
  | nil => intro table x h; exact h
  | cons f rest ih =>
    intro table x h
    exact ih _ x (upsertEvent_id_preserved table f x h)

theorem foldl_upsertEvent_ids :
    ∀ (events : List DigestEvent) (table : EventTable), ∀ e ∈ events,
      ∃ row ∈ events.foldl upsertEvent table, row.id = e.id := by
  intro events
  induction events with
  | nil => intro table e h; simp at h
  | cons f rest ih =>
    intro table e he
    rcases List.mem_cons.mp he with rfl | he
    · exact foldl_upsertEvent_id_preserved rest _ e.id (upsertEvent_id_mem table e)
    · exact ih _ e he

theorem mem_listEvents_passes (table : EventTable) (since : Chars)
    (limit : Option Nat) (types taskIds : Option (List Chars)) (e : DigestEvent)
    (h : e ∈ listEvents table since limit types taskIds) :
    eventPasses since types taskIds e = true := by
  unfold listEvents at h
  have hm : e ∈ (table.filter (eventPasses since types taskIds)).mergeSort
      (fun a b => charsLe b.createdAt a.createdAt) := by
    revert h
    match limit with
    | none => exact id
    | some 0 => exact id
    | some (n + 1) => exact fun h => List.mem_of_mem_take h
  exact (List.mem_filter.mp (List.mem_mergeSort.mp hm)).2

/-- C9: every parsed event is persisted regardless of its event time — a
row with its id is in the new store — while the returned list is the
re-query of the new store with the call's since watermark, limit and type
filters; hence a built event whose `createdAt` precedes the watermark, or
whose type a supplied nonempty filter list excludes, is stored yet absent
from the ingest result. -/
theorem C9_ingest_requery (uuid taskUuid : Nat → Chars)
    (parseIso : Chars → Option Chars) (now defaultSource : Chars)
    (eventTable : EventTable) (taskTable : TaskTable) (opts : IngestOptions) :
    ((ingestorIngest uuid taskUuid parseIso now defaultSource eventTable taskTable
        opts).2.2.events
      = listEvents
          ((ingestorIngest uuid taskUuid parseIso now defaultSource eventTable taskTable
            opts).1)
          opts.since opts.limit opts.filters none) ∧
    (∀ e ∈ buildIngestEvents uuid parseIso now defaultSource opts,
      ∃ row ∈ (ingestorIngest uuid taskUuid parseIso now defaultSource eventTable
          taskTable opts).1, row.id = e.id) ∧
    (∀ e ∈ buildIngestEvents uuid parseIso now defaultSource opts,
      charsLe opts.since e.createdAt = false →
      e ∉ (ingestorIngest uuid taskUuid parseIso now defaultSource eventTable taskTable
          opts).2.2.events) ∧
    (∀ e ∈ buildIngestEvents uuid parseIso now defaultSource opts,
      ∀ t ts, opts.filters = some (t :: ts) → e.type ∉ t :: ts →
      e ∉ (ingestorIngest uuid taskUuid parseIso now defaultSource eventTable taskTable
          opts).2.2.events) := by
  refine ⟨rfl, ?_, ?_, ?_⟩
  · intro e he
    exact foldl_upsertEvent_ids _ eventTable e he
  · intro e _ hcreated hmem
    have hp := mem_listEvents_passes _ _ _ _ _ e hmem
    rw [eventPasses_iff] at hp
    rw [hp.1] at hcreated
    simp at hcreated
  · intro e _ t ts hf hnotin hmem
    have hp := mem_listEvents_passes _ _ _ _ _ e hmem
    rw [eventPasses_iff] at hp
    have hty := hp.2.1
    unfold typeCondHolds at hty
    rw [hf] at hty
    exact hnotin hty

def c9Opts : IngestOptions :=
  { since := str "2025-01-01T00:00:00.000Z", limit := none, filters := none
    vkLogs := [⟨none, str "hello world", none, some (str "2024-01-01T00:00:00.000Z")⟩]
    gitDiffs := [], tasks := [] }

def c9Event : DigestEvent :=
  { id := str "u1", type := str "vk_log", source := str "workspace"
    message := str "hello world", createdAt := str "2024-01-01T00:00:00.000Z"
    taskId := none }

/-- C9 witness: the theorem at a concrete ingest whose single log event
predates the since watermark — a row with its id is stored, yet the event
is absent from the returned list. -/
theorem C9_ingest_requery_witness :
    (∃ row ∈ (ingestorIngest (fun _ => str "u1") (fun _ => str "t1") (fun _ => none)
        (str "NOW") (str "workspace") [] [] c9Opts).1, row.id = c9Event.id) ∧
    c9Event ∉ (ingestorIngest (fun _ => str "u1") (fun _ => str "t1") (fun _ => none)
        (str "NOW") (str "workspace") [] [] c9Opts).2.2.events := by
  have h := C9_ingest_requery (fun _ => str "u1") (fun _ => str "t1") (fun _ => none)
    (str "NOW") (str "workspace") [] [] c9Opts
  exact ⟨h.2.1 c9Event (by decide), h.2.2.1 c9Event (by decide) (by decide)⟩

end DevPilot
